import Mathlib

/-!
Verification of the realtime tool-call-deduplicating session proxy of
DailyPilot against its design specification.

The definitions below are a shallow embedding of the proxy code:

* `Json`, `jsonStringify`, `stableArgsHash`, `actionKey` model the argument
  values and the fingerprinting helpers of `src/server/index.ts`
  (functions `stableArgsHash` and `actionKey`).
* `SessionState`, `sweepPending`, `processCalls`, `stepEvent` model the
  per-connection deduplicating proxy: the pending-map sweep, the
  tool-call batch handler inside `onmessage`, and the `toolResponse`
  completion path of the client message handler.
* `LoopState`, `loopInbound`, `loopOutbound` model the LoopGuard variant
  (the earlier proxy retained in the repository).

JavaScript `undefined` is modelled with `Option`; JS objects are modelled
as insertion-ordered association lists, mirroring JS property order.
-/

namespace DailyPilot

/-- JSON-like argument values, as produced by the upstream model for tool
arguments.  Objects are insertion-ordered association lists, mirroring
JavaScript property enumeration order (arrays do not occur among the tool
arguments of this app and are omitted). -/
inductive Json where
  | str (s : String)
  | num (n : Int)
  | bool (b : Bool)
  | null
  | obj (fields : List (String × Json))

/-- JS `String.prototype.toLowerCase` (character-wise lowering). -/
def jsToLower (s : String) : String := ⟨s.data.map Char.toLower⟩

/-- JS `String.prototype.trim`: strip whitespace from both ends. -/
def jsTrim (s : String) : String :=
  ⟨((s.data.dropWhile Char.isWhitespace).reverse.dropWhile Char.isWhitespace).reverse⟩

/-- JS `String.prototype.substring(0, n)`. -/
def jsTake (s : String) (n : Nat) : String := ⟨s.data.take n⟩

/-- Code-unit lexicographic string order, the comparison used by JS
`Array.prototype.sort()` on `Object.keys`. -/
def strLeB (s t : String) : Bool :=
  go s.data t.data
where
  go : List Char → List Char → Bool
    | [], _ => true
    | _ :: _, [] => false
    | a :: as, b :: bs =>
      if a.toNat < b.toNat then true
      else if b.toNat < a.toNat then false
      else go as bs

/-- Minimal JSON string escaping as performed by `JSON.stringify` (quotes
and backslashes; control characters do not occur in the values handled
here). -/
def escapeJson (s : String) : String :=
  String.join (s.toList.map (fun c =>
    if c = '"' then "\\\""
    else if c = '\\' then "\\\\"
    else String.singleton c))

mutual

/-- Model of `JSON.stringify` on `Json` values: keys are emitted in list
(insertion) order, exactly as `JSON.stringify` emits JS object properties. -/
def jsonStringify : Json → String
  | .str s => "\"" ++ escapeJson s ++ "\""
  | .num n => toString n
  | .bool b => toString b
  | .null => "null"
  | .obj fields => "\x7b" ++ stringifyFields fields ++ "\x7d"

/-- Comma-separated `"key":value` rendering of object fields, in order. -/
def stringifyFields : List (String × Json) → String
  | [] => ""
  | [kv] => "\"" ++ escapeJson kv.1 ++ "\":" ++ jsonStringify kv.2
  | kv :: kv2 :: rest =>
      "\"" ++ escapeJson kv.1 ++ "\":" ++ jsonStringify kv.2 ++ ","
        ++ stringifyFields (kv2 :: rest)

end

/-- `String(v)` for a primitive (non-object) JS value, as used by the
`!args || typeof args !== 'object'` branch of `stableArgsHash`. -/
def jsPrimString : Json → String
  | .str s => s
  | .num n => toString n
  | .bool b => toString b
  | .null => "null"
  | .obj _ => ""   -- unreachable: objects take the other branch

/-- `val.toLowerCase().trim()` applied to string leaves, identity
elsewhere — the per-value normalisation inside `stableArgsHash`. -/
def normalizeVal : Json → Json
  | .str s => .str (jsTrim (jsToLower s))
  | v => v

/-- Insert a field into a key-sorted field list (string order on keys),
the building block of the model of `Object.keys(args).sort()`. -/
def insertPair (p : String × Json) : List (String × Json) → List (String × Json)
  | [] => [p]
  | q :: rest => if strLeB p.1 q.1 then p :: q :: rest else q :: insertPair p rest

/-- Sort object fields by key — the model of `Object.keys(args).sort()`
followed by rebuilding the object in sorted key order. -/
def sortFields : List (String × Json) → List (String × Json)
  | [] => []
  | p :: rest => insertPair p (sortFields rest)

/-- Model of `stableArgsHash` from `src/server/index.ts`: for
non-object args, `name + ":" + String(args)`; for objects, sort the
top-level keys, lowercase and trim top-level string values, and append
the `JSON.stringify` of the rebuilt object.  Nested values are passed
through unchanged, exactly as in the source. -/
def stableArgsHash (name : String) (args : Json) : String :=
  match args with
  | .obj fields =>
      name ++ ":" ++ jsonStringify (.obj ((sortFields fields).map
        (fun kv => (kv.1, normalizeVal kv.2))))
  | v => name ++ ":" ++ jsPrimString v

/-- First value bound to `key` in an object, `none` for a missing key or
a non-object — the model of JS `args?.key` (an absent property reads as
`undefined`). -/
def getField (v : Json) (key : String) : Option Json :=
  match v with
  | .obj fields => (fields.find? (fun kv => kv.1 = key)).map Prod.snd
  | _ => none

/-- `(args?.key || '')` for a string-valued field: the string when the
field holds one, `""` when the field is absent (the tool schemas of this
app make these fields strings whenever present). -/
def getStrField (v : Option Json) (key : String) : String :=
  match v with
  | some j =>
      match getField j key with
      | some (.str s) => s
      | _ => ""
  | none => ""

/-- Model of `actionKey` from `src/server/index.ts`: the coarse
semantic-dedup key, `none` for tools outside the action-tool list. -/
def actionKey (name : String) (args : Option Json) : Option String :=
  if name = "add_task" ∨ name = "add_event" then
    some (name ++ ":" ++ jsTake (jsToLower (getStrField args "title")) 30)
  else if name = "draft_message" then
    some (name ++ ":" ++ jsToLower (getStrField args "recipient") ++ ":"
      ++ jsToLower (getStrField args "platform"))
  else if name = "delete_task" then
    some (name ++ ":" ++ getStrField args "taskId")
  else if name = "delete_event" then
    some (name ++ ":" ++ getStrField args "eventId")
  else if name = "save_suggestion" then
    some (name ++ ":" ++ jsTake (jsToLower (getStrField args "title")) 30)
  else if name = "report_alert" then
    some (name ++ ":" ++ jsTake (jsToLower (getStrField args "message")) 50)
  else none

/-! ## Session state of the deduplicating proxy (`src/server/index.ts`) -/

/-- Upstream (Gemini) tool-call ids. -/
abbrev UpId := String

/-- Internal correlation ids.  The source generates the string
`server-$\x7b++toolIdCounter\x7d-$\x7bnow\x7d`; the id is determined by the
counter value and the timestamp, so it is modelled as that pair. -/
abbrev InternalId := Nat × Nat

/-- One entry of the `pendingToolCalls` map. -/
structure PendingEntry where
  originalId : InternalId
  geminiId : Option UpId
  duplicateIds : List InternalId
  duplicateGeminiIds : List (Option UpId)
  name : String
  timestamp : Nat
  result : Option Json
  responded : Bool

/-- An incoming upstream function call (`fc`).  `id` and `args` may be
absent (`undefined`), hence `Option`. -/
structure Call where
  id : Option UpId
  name : String
  args : Option Json

/-- A tool-call message as forwarded to the client: `fc.id` has been
overwritten with the internal id. -/
structure FwdCall where
  id : InternalId
  name : String
  args : Option Json

/-- One element of a client `toolResponse` message. -/
structure ClientResp where
  id : InternalId
  name : String
  response : Json

/-- One element of a `sendToolResponse` payload sent upstream. -/
structure FunctionResponse where
  id : Option UpId
  name : String
  response : Json

/-- Coarse conversational activity state. -/
inductive ActivityState where
  | idle | listening | thinking | speaking
deriving DecidableEq

/-- Observable effects of the proxy handlers. -/
inductive Output where
  | toolResponse (fr : FunctionResponse)
  | toolResponseBatch (frs : List FunctionResponse)
  | forwardCalls (calls : List FwdCall)
  | clientThought (thought : String) (ttype : String)
  | clientError (error : String)
  | clientFallback (text : String)
  | clientActivity (state : ActivityState)

/-- Per-connection mutable state of the deduplicating proxy. -/
structure SessionState where
  pendingToolCalls : List (String × PendingEntry)
  recentActions : List (String × Nat)
  toolIdCounter : Nat
  missingToolIdCount : Nat
  lastActivityState : ActivityState
  currentInputTranscript : String
  lastFinalInputTranscript : String
  clientOpen : Bool

/-- State at client connect. -/
def initState : SessionState :=
  { pendingToolCalls := [], recentActions := [], toolIdCounter := 0,
    missingToolIdCount := 0, lastActivityState := .idle,
    currentInputTranscript := "", lastFinalInputTranscript := "",
    clientOpen := true }

def DEDUP_WINDOW_MS : Nat := 10000
def MAX_PENDING_TOOL_MS : Nat := 30000
def ACTION_DEDUP_WINDOW_MS : Nat := 15000

/-! JS `Map` semantics: insertion-ordered; `set` updates an existing key
in place, otherwise appends; iteration visits entries in insertion
order. -/

/-- `Map.get` -/
def alistGet {α : Type} (m : List (String × α)) (k : String) : Option α :=
  (m.find? (fun kv => kv.1 = k)).map Prod.snd

/-- `Map.set` -/
def alistSet {α : Type} (m : List (String × α)) (k : String) (v : α)
    : List (String × α) :=
  match m with
  | [] => [(k, v)]
  | kv :: rest => if kv.1 = k then (k, v) :: rest else kv :: alistSet rest k v

/-- The synthesized timeout error payload of the pending-map sweep. -/
def timeoutErr (e : PendingEntry) : Json :=
  .obj [("error", .str ("Tool \"" ++ e.name ++ "\" timed out after "
    ++ toString MAX_PENDING_TOOL_MS ++ "ms"))]

/-- Upstream sends performed when one unresponded entry times out: the
original id (when defined), then every defined queued duplicate id. -/
def sweepEntryOuts (e : PendingEntry) : List Output :=
  (match e.geminiId with
   | some g => [.toolResponse ⟨some g, e.name, timeoutErr e⟩]
   | none => [])
  ++ e.duplicateGeminiIds.filterMap (fun d =>
      match d with
      | some g => some (.toolResponse ⟨some g, e.name, timeoutErr e⟩)
      | none => none)

/-- The pending-map sweep run at the top of every upstream `onmessage`:
drop entries responded longer than `DEDUP_WINDOW_MS` ago; time out and
drop unresponded entries older than `MAX_PENDING_TOOL_MS`, answering the
original id and all queued duplicate ids. -/
def sweepPending (now : Nat) : List (String × PendingEntry)
    → List (String × PendingEntry) × List Output
  | [] => ([], [])
  | (k, e) :: rest =>
    let (m, outs) := sweepPending now rest
    if e.responded = true ∧ now - e.timestamp > DEDUP_WINDOW_MS then
      (m, outs)
    else if e.responded = false ∧ now - e.timestamp > MAX_PENDING_TOOL_MS then
      (m, sweepEntryOuts e ++ outs)
    else ((k, e) :: m, outs)

/-- `emitActivity`: notify the client only on an actual transition. -/
def emitActivity (s : SessionState) (st : ActivityState)
    : SessionState × List Output :=
  if st = s.lastActivityState then (s, [])
  else ({ s with lastActivityState := st },
        if s.clientOpen then [.clientActivity st] else [])

/-- The client-visible error text of the missing-id branch (the provider
tag of the source message is a connection constant and is elided). -/
def missingIdError (name : String) : String :=
  "Gemini tool call missing id for " ++ name

/-- JS `a || b` on strings: `b` when `a` is empty. -/
def jsOrStr (a b : String) : String := if a = "" then b else a

/-- The missing-id branch of the per-call loop: bump the counter, notify
the client with an error, and surface the last known user utterance as
fallback text when one exists (after which the cached transcripts are
cleared); the handler then returns early. -/
def missingIdStep (s : SessionState) (name : String) : SessionState × List Output :=
  let s1 := { s with missingToolIdCount := s.missingToolIdCount + 1 }
  if s1.clientOpen then
    let fallback := jsTrim (jsOrStr s1.lastFinalInputTranscript s1.currentInputTranscript)
    if fallback = "" then
      (s1, [Output.clientError (missingIdError name)])
    else
      ({ s1 with lastFinalInputTranscript := "", currentInputTranscript := "" },
       [Output.clientError (missingIdError name), Output.clientFallback fallback])
  else (s1, [])

/-- The per-call loop of the `message.toolCall` handler.  Processes the
batch in order; returns the final state, the outputs emitted inside the
loop, the accumulated `uniqueCalls`, and whether the handler returned
early (missing-id branch). -/
def processCalls (now : Nat) (s : SessionState)
    : List Call → SessionState × List Output × List FwdCall × Bool
  | [] => (s, [], [], false)
  | fc :: rest =>
    if fc.name = "log_thought" then
      -- server-only tool: notify client, answer upstream immediately
      let thought := getStrField fc.args "thought"
      let ttype := jsOrStr (getStrField fc.args "type") "reasoning"
      let outs1 :=
        (if s.clientOpen then [Output.clientThought thought ttype] else [])
        ++ [Output.toolResponse ⟨fc.id, fc.name,
              .obj [("result", .obj [("success", .bool true)])]⟩]
      let (s2, outs2, uniq, ab) := processCalls now s rest
      (s2, outs1 ++ outs2, uniq, ab)
    else
      match fc.id with
      | none =>
        -- missing id: notify client, surface fallback text, return early
        let r := missingIdStep s fc.name
        (r.1, r.2, [], true)
      | some geminiId =>
        let internalId : InternalId := (s.toolIdCounter + 1, now)
        let s1 := { s with toolIdCounter := s.toolIdCounter + 1 }
        let dedupKey := stableArgsHash fc.name (fc.args.getD (.obj []))
        match alistGet s1.pendingToolCalls dedupKey with
        | some existing =>
          -- exact duplicate: queue, answer at once when a result is cached
          let upd := { existing with
            duplicateIds := existing.duplicateIds ++ [internalId],
            duplicateGeminiIds := existing.duplicateGeminiIds ++ [some geminiId] }
          let s2 := { s1 with
            pendingToolCalls := alistSet s1.pendingToolCalls dedupKey upd }
          let outs1 :=
            match existing.result with
            | some r => [Output.toolResponse ⟨some geminiId, fc.name,
                           .obj [("result", r)]⟩]
            | none => []
          let (s3, outs2, uniq, ab) := processCalls now s2 rest
          (s3, outs1 ++ outs2, uniq, ab)
        | none =>
          let aKey := actionKey fc.name fc.args
          if aKey.isSome = true ∧ (alistGet s1.recentActions (aKey.getD "")).isSome = true then
            -- semantic duplicate: synthetic success, no forward, no entry
            let outs1 := [Output.toolResponse ⟨some geminiId, fc.name,
              .obj [("result", .obj [("success", .bool true),
                ("note", .str "Already processed similar request")])]⟩]
            let (s2, outs2, uniq, ab) := processCalls now s1 rest
            (s2, outs1 ++ outs2, uniq, ab)
          else
            -- genuinely new call: register and forward under the internal id
            let entry : PendingEntry :=
              { originalId := internalId, geminiId := some geminiId,
                duplicateIds := [], duplicateGeminiIds := [],
                name := fc.name, timestamp := now,
                result := none, responded := false }
            let s2 := { s1 with
              pendingToolCalls := alistSet s1.pendingToolCalls dedupKey entry,
              recentActions :=
                (match aKey with
                 | some k => alistSet s1.recentActions k now
                 | none => s1.recentActions) }
            let (s3, outs2, uniq, ab) := processCalls now s2 rest
            (s3, outs2, ⟨internalId, fc.name, fc.args⟩ :: uniq, ab)

/-- The upstream `onmessage` handler for a `toolCall` message: sweep the
pending map, emit `thinking`, expire old action keys, run the per-call
loop, and forward the non-empty batch of unique calls unless the loop
returned early. -/
def stepToolCall (s : SessionState) (now : Nat) (calls : List Call)
    : SessionState × List Output :=
  let (m1, swOuts) := sweepPending now s.pendingToolCalls
  let s1 := { s with pendingToolCalls := m1 }
  let (s2, actOuts) := emitActivity s1 .thinking
  let s3 := { s2 with recentActions :=
    s2.recentActions.filter (fun kv => decide (now - kv.2 ≤ ACTION_DEDUP_WINDOW_MS)) }
  let (s4, callOuts, uniq, aborted) := processCalls now s3 calls
  let fwdOuts :=
    if aborted then []
    else if uniq.isEmpty then []
    else if s4.clientOpen then [Output.forwardCalls uniq] else []
  (s4, swOuts ++ actOuts ++ callOuts ++ fwdOuts)

/-- The inner lookup of the completion path: find the first map entry
whose `originalId` matches the client response id, mutate it, and emit
per-duplicate upstream sends; an already-responded match is left
untouched (`break`). Returns the new map, the outputs, and the
`functionResponses` element pushed for this response. -/
def completeInMap (r : ClientResp) : List (String × PendingEntry)
    → List (String × PendingEntry) × List Output × List FunctionResponse
  | [] => ([], [], [])
  | (k, e) :: rest =>
    if e.originalId = r.id then
      if e.responded then ((k, e) :: rest, [], [])
      else
        let res := getField r.response "result"
        let e2 : PendingEntry :=
          { e with result := res, responded := true,
                   duplicateIds := [], duplicateGeminiIds := [] }
        let dupOuts := e.duplicateGeminiIds.map
          (fun d => Output.toolResponse ⟨d, e.name, r.response⟩)
        ((k, e2) :: rest, dupOuts, [⟨e.geminiId, e.name, r.response⟩])
    else
      let (m, outs, frs) := completeInMap r rest
      ((k, e) :: m, outs, frs)

/-- Sequential processing of the responses of one client `toolResponse`
message, accumulating the final `geminiResponses` batch. -/
def completeAll (s : SessionState)
    : List ClientResp → SessionState × List Output × List FunctionResponse
  | [] => (s, [], [])
  | r :: rest =>
    let (m, outs1, frs1) := completeInMap r s.pendingToolCalls
    let s1 := { s with pendingToolCalls := m }
    let (s2, outs2, frs2) := completeAll s1 rest
    (s2, outs1 ++ outs2, frs1 ++ frs2)

/-- The client `toolResponse` handler: mutate matching entries, answer
queued duplicates, then send the collected responses upstream under the
original Gemini ids (one batched send, only when non-empty). -/
def stepToolResponses (s : SessionState) (rs : List ClientResp)
    : SessionState × List Output :=
  let (s1, outs, frs) := completeAll s rs
  (s1, outs ++ (if frs.isEmpty then [] else [Output.toolResponseBatch frs]))

/-- Events driving one proxy session.  `upstreamOther` stands for any
upstream event that is not a tool call: it still triggers the sweep at
the top of `onmessage`. -/
inductive Event where
  | upstreamCalls (now : Nat) (calls : List Call)
  | upstreamOther (now : Nat)
  | clientResponses (rs : List ClientResp)

/-- One event step of the proxy. -/
def stepEvent (s : SessionState) : Event → SessionState × List Output
  | .upstreamCalls now calls => stepToolCall s now calls
  | .upstreamOther now =>
      let (m1, swOuts) := sweepPending now s.pendingToolCalls
      ({ s with pendingToolCalls := m1 }, swOuts)
  | .clientResponses rs => stepToolResponses s rs

/-- Run the proxy over an event trace, concatenating outputs. -/
def run (s : SessionState) : List Event → SessionState × List Output
  | [] => (s, [])
  | e :: rest =>
    let (s1, o1) := stepEvent s e
    let (s2, o2) := run s1 rest
    (s2, o1 ++ o2)

/-! ## Observation functions over traces and outputs -/

/-- Number of times one upstream response element targets id `u`. -/
def frCount (u : UpId) (fr : FunctionResponse) : Nat :=
  if fr.id = some u then 1 else 0

/-- Number of tool responses sent upstream for id `u` (counting both the
immediate single sends and the elements of batched sends). -/
def countResponsesTo (u : UpId) : List Output → Nat
  | [] => 0
  | .toolResponse fr :: rest => frCount u fr + countResponsesTo u rest
  | .toolResponseBatch frs :: rest =>
      (frs.map (frCount u)).sum + countResponsesTo u rest
  | _ :: rest => countResponsesTo u rest

/-- All tool calls forwarded to the client across a list of outputs. -/
def forwardedCalls : List Output → List FwdCall
  | [] => []
  | .forwardCalls cs :: rest => cs ++ forwardedCalls rest
  | _ :: rest => forwardedCalls rest

/-- The upstream ids of the calls of one batch that the handler loop
actually reaches and that the exactly-one-response property covers:
`log_thought` calls are excluded, and a missing-id call aborts the whole
handler, so later calls of the batch are never seen. -/
def countedIdsInBatch : List Call → List UpId
  | [] => []
  | fc :: rest =>
    if fc.name = "log_thought" then countedIdsInBatch rest
    else
      match fc.id with
      | none => []
      | some g => g :: countedIdsInBatch rest

/-- How often id `u` arrives over a trace as a covered (non-`log_thought`,
id-bearing, actually reached) tool call. -/
def arrivals (u : UpId) : List Event → Nat
  | [] => 0
  | .upstreamCalls _ calls :: rest =>
      (countedIdsInBatch calls).count u + arrivals u rest
  | _ :: rest => arrivals u rest

/-- The ids carried by reached `log_thought` calls of one batch (these
are answered by the server-only branch and are outside the
exactly-one-response accounting). -/
def thoughtIdsInBatch : List Call → List (Option UpId)
  | [] => []
  | fc :: rest =>
    if fc.name = "log_thought" then fc.id :: thoughtIdsInBatch rest
    else
      match fc.id with
      | none => []
      | some _ => thoughtIdsInBatch rest

/-- How often id `u` arrives over a trace on a `log_thought` call. -/
def thoughtArrivals (u : UpId) : List Event → Nat
  | [] => 0
  | .upstreamCalls _ calls :: rest =>
      (thoughtIdsInBatch calls).count (some u) + thoughtArrivals u rest
  | _ :: rest => thoughtArrivals u rest

/-- Upstream responses still owed by one pending entry: an unresponded
entry owes its original id and every queued duplicate id; a responded
entry owes nothing (its original id was answered at completion, and its
queued duplicates were answered either at completion or on arrival). -/
def owedEntry (u : UpId) (e : PendingEntry) : Nat :=
  if e.responded then 0
  else (if e.geminiId = some u then 1 else 0)
       + e.duplicateGeminiIds.count (some u)

/-- Total responses owed to id `u` by the pending map. -/
def owedMap (u : UpId) (m : List (String × PendingEntry)) : Nat :=
  (m.map (fun kv => owedEntry u kv.2)).sum

/-- Every entry is responded exactly when it holds a cached result.
This is the state invariant under which late duplicates are answered
from the cache; it is maintained whenever every client result carries a
defined `result` field. -/
def goodEntries (m : List (String × PendingEntry)) : Prop :=
  ∀ kv ∈ m, kv.2.responded = true ↔ kv.2.result.isSome = true

/-- Every response of a client `toolResponse` event carries a defined
`response.result` field (the success shape of the client executor). -/
def eventResultsDefined : Event → Prop
  | .clientResponses rs => ∀ r ∈ rs, (getField r.response "result").isSome = true
  | _ => True

/-! ## Fingerprint stability (claim C3) -/

/-- The single-pair normalisation applied by `stableArgsHash` to each
top-level field: keep the key, lowercase and trim a string value. -/
def normPair (kv : String × Json) : String × Json := (kv.1, normalizeVal kv.2)

/-- Key order underlying the model of `Object.keys(args).sort()`. -/
def fieldLE (p q : String × Json) : Prop := strLeB p.1 q.1 = true

mutual

/-- Modelled from the spec wording of fingerprint stability: the
canonical form of an argument value under the relation "differ only in
key order or in the casing/surrounding whitespace of string values (at
any depth, including nested objects)" — string leaves are lowercased and
trimmed and object keys are sorted at every depth.  Two values differ
only in those ways exactly when their canonical forms are equal. -/
def deepNormalize : Json → Json
  | .str s => .str (jsTrim (jsToLower s))
  | .num n => .num n
  | .bool b => .bool b
  | .null => .null
  | .obj fields => .obj (sortFields (deepNormalizeFields fields))

/-- Pointwise `deepNormalize` over object fields. -/
def deepNormalizeFields : List (String × Json) → List (String × Json)
  | [] => []
  | kv :: rest => (kv.1, deepNormalize kv.2) :: deepNormalizeFields rest

end

lemma strLeB_go_total (as : List Char) : ∀ bs,
    strLeB.go as bs = true ∨ strLeB.go bs as = true := by
  induction as with
  | nil => intro bs; left; rfl
  | cons a as ih =>
    intro bs
    cases bs with
    | nil => right; rfl
    | cons b bs =>
      simp only [strLeB.go]
      rcases Nat.lt_trichotomy a.toNat b.toNat with h | h | h
      · left; rw [if_pos h]
      · have h1 : ¬ a.toNat < b.toNat := by omega
        have h2 : ¬ b.toNat < a.toNat := by omega
        simp only [if_neg h1, if_neg h2]
        exact ih bs
      · right; rw [if_pos h]

lemma strLeB_go_trans (as : List Char) : ∀ bs cs,
    strLeB.go as bs = true → strLeB.go bs cs = true →
    strLeB.go as cs = true := by
  induction as with
  | nil => intro bs cs _ _; rfl
  | cons a as ih =>
    intro bs cs h1 h2
    cases bs with
    | nil => simp [strLeB.go] at h1
    | cons b bs =>
      cases cs with
      | nil => simp [strLeB.go] at h2
      | cons c cs =>
        simp only [strLeB.go] at h1 h2 ⊢
        by_cases hab : a.toNat < b.toNat
        · by_cases hbc : b.toNat < c.toNat
          · rw [if_pos (by omega)]
          · by_cases hcb : c.toNat < b.toNat
            · rw [if_neg hbc, if_pos hcb] at h2; exact absurd h2 (by simp)
            · rw [if_pos (by omega)]
        · by_cases hba : b.toNat < a.toNat
          · rw [if_neg hab, if_pos hba] at h1; exact absurd h1 (by simp)
          · rw [if_neg hab, if_neg hba] at h1
            by_cases hbc : b.toNat < c.toNat
            · rw [if_pos (by omega)]
            · by_cases hcb : c.toNat < b.toNat
              · rw [if_neg hbc, if_pos hcb] at h2; exact absurd h2 (by simp)
              · rw [if_neg hbc, if_neg hcb] at h2
                rw [if_neg (by omega), if_neg (by omega)]
                exact ih bs cs h1 h2

lemma strLeB_go_antisymm (as : List Char) : ∀ bs,
    strLeB.go as bs = true → strLeB.go bs as = true → as = bs := by
  induction as with
  | nil =>
    intro bs h1 h2
    cases bs with
    | nil => rfl
    | cons b bs => simp [strLeB.go] at h2
  | cons a as ih =>
    intro bs h1 h2
    cases bs with
    | nil => simp [strLeB.go] at h1
    | cons b bs =>
      simp only [strLeB.go] at h1 h2
      by_cases hab : a.toNat < b.toNat
      · rw [if_neg (by omega), if_pos hab] at h2; exact absurd h2 (by simp)
      · by_cases hba : b.toNat < a.toNat
        · rw [if_neg hab, if_pos hba] at h1; exact absurd h1 (by simp)
        · rw [if_neg hab, if_neg hba] at h1
          rw [if_neg hba, if_neg hab] at h2
          have hv : a.val = b.val := by
            have : a.val.toNat = b.val.toNat := by
              simp only [Char.toNat] at hab hba; omega
            exact UInt32.toNat.inj this
          have : a = b := Char.ext hv
          rw [this, ih bs h1 h2]

lemma strLeB_total (s t : String) : strLeB s t = true ∨ strLeB t s = true :=
  strLeB_go_total s.data t.data

lemma strLeB_trans {s t u : String} (h1 : strLeB s t = true)
    (h2 : strLeB t u = true) : strLeB s u = true :=
  strLeB_go_trans s.data t.data u.data h1 h2

lemma strLeB_antisymm {s t : String} (h1 : strLeB s t = true)
    (h2 : strLeB t s = true) : s = t := by
  cases s with
  | mk ds =>
    cases t with
    | mk dt => exact congrArg String.mk (strLeB_go_antisymm ds dt h1 h2)

lemma insertPair_perm (p : String × Json) (l : List (String × Json)) :
    (insertPair p l).Perm (p :: l) := by
  induction l with
  | nil => simp [insertPair]
  | cons q rest ih =>
    by_cases h : strLeB p.1 q.1 = true
    · simp [insertPair, h]
    · simp only [insertPair, if_neg h]
      exact (ih.cons q).trans (List.Perm.swap p q rest)

lemma sortFields_perm (l : List (String × Json)) : (sortFields l).Perm l := by
  induction l with
  | nil => simp [sortFields]
  | cons p rest ih =>
    exact (insertPair_perm p (sortFields rest)).trans (ih.cons p)

lemma insertPair_sorted (p : String × Json) (l : List (String × Json))
    (h : List.Sorted fieldLE l) : List.Sorted fieldLE (insertPair p l) := by
  induction l with
  | nil => simp [insertPair, List.Sorted]
  | cons q rest ih =>
    rw [List.sorted_cons] at h
    by_cases hle : strLeB p.1 q.1 = true
    · simp only [insertPair, if_pos hle]
      rw [List.sorted_cons]
      refine ⟨?_, List.sorted_cons.mpr ⟨h.1, h.2⟩⟩
      intro b hb
      rcases List.mem_cons.mp hb with rfl | hb
      · exact hle
      · exact strLeB_trans hle (h.1 b hb)
    · simp only [insertPair, if_neg hle]
      rw [List.sorted_cons]
      refine ⟨?_, ih h.2⟩
      intro b hb
      rcases List.mem_cons.mp ((insertPair_perm p rest).mem_iff.mp hb) with hbp | hb
      · rw [hbp]
        exact (strLeB_total p.1 q.1).resolve_left hle
      · exact h.1 b hb

lemma sortFields_sorted (l : List (String × Json)) :
    List.Sorted fieldLE (sortFields l) := by
  induction l with
  | nil => simp [sortFields, List.Sorted]
  | cons p rest ih => exact insertPair_sorted p (sortFields rest) ih

/-- Two key-sorted field lists that are permutations of each other and
have duplicate-free keys are equal. -/
lemma sorted_perm_nodupKeys_eq (l1 : List (String × Json)) :
    ∀ l2 : List (String × Json), l1.Perm l2 → List.Sorted fieldLE l1 →
    List.Sorted fieldLE l2 → (l1.map Prod.fst).Nodup → l1 = l2 := by
  induction l1 with
  | nil =>
    intro l2 hp _ _ _
    exact hp.nil_eq
  | cons a t1 ih =>
    intro l2 hp hs1 hs2 hnd
    cases l2 with
    | nil => exact absurd hp.symm.nil_eq (by simp)
    | cons b t2 =>
      rw [List.sorted_cons] at hs1 hs2
      have hab : a = b := by
        by_contra hne
        have hat2 : a ∈ t2 := by
          have := hp.mem_iff.mp (List.mem_cons_self a t1)
          rcases List.mem_cons.mp this with h | h
          · exact absurd h hne
          · exact h
        have hbt1 : b ∈ t1 := by
          have := hp.symm.mem_iff.mp (List.mem_cons_self b t2)
          rcases List.mem_cons.mp this with h | h
          · exact absurd h.symm hne
          · exact h
        have h1 : strLeB a.1 b.1 = true := hs1.1 b hbt1
        have h2 : strLeB b.1 a.1 = true := hs2.1 a hat2
        have hkey : a.1 = b.1 := strLeB_antisymm h1 h2
        rw [List.map_cons, List.nodup_cons] at hnd
        exact hnd.1 (hkey ▸ (List.mem_map_of_mem Prod.fst hbt1))
      subst hab
      have ht : t1.Perm t2 := hp.cons_inv
      have : t1 = t2 := by
        refine ih t2 ht hs1.2 hs2.2 ?_
        rw [List.map_cons, List.nodup_cons] at hnd
        exact hnd.2
      rw [this]

lemma map_normPair_insertPair (p : String × Json) (l : List (String × Json)) :
    (insertPair p l).map normPair = insertPair (normPair p) (l.map normPair) := by
  induction l with
  | nil => rfl
  | cons q rest ih =>
    by_cases h : strLeB p.1 q.1 = true
    · simp [insertPair, h, normPair]
    · have h2 : ¬ strLeB (normPair p).1 (normPair q).1 = true := h
      simp only [insertPair, if_neg h, if_neg h2, List.map_cons]
      rw [ih]

lemma map_normPair_sortFields (l : List (String × Json)) :
    (sortFields l).map normPair = sortFields (l.map normPair) := by
  induction l with
  | nil => rfl
  | cons p rest ih =>
    simp only [sortFields, List.map_cons]
    rw [map_normPair_insertPair, ih]

/-- C3 (amended): the deduplication fingerprint is stable under
differences in **top-level** key order and in the casing/surrounding
whitespace of **top-level** string values: whenever the normalised
top-level fields of two argument objects agree up to permutation (and
keys are duplicate-free, as JS object keys are), the hashes agree.
Nested objects, however, enter the hash verbatim. -/
theorem c3_fingerprint_stable_top_level (n : String)
    (f1 f2 : List (String × Json))
    (hperm : (f1.map normPair).Perm (f2.map normPair))
    (hnd : (f1.map Prod.fst).Nodup) :
    stableArgsHash n (.obj f1) = stableArgsHash n (.obj f2) := by
  have hnd1 : ((f1.map normPair).map Prod.fst).Nodup := by
    have : (f1.map normPair).map Prod.fst = f1.map Prod.fst := by
      simp [normPair]
    rw [this]; exact hnd
  have hkey : sortFields (f1.map normPair) = sortFields (f2.map normPair) := by
    refine sorted_perm_nodupKeys_eq _ _ ?_ (sortFields_sorted _) (sortFields_sorted _) ?_
    · exact (sortFields_perm _).trans (hperm.trans (sortFields_perm _).symm)
    · exact ((sortFields_perm (f1.map normPair)).map Prod.fst).nodup_iff.mpr hnd1
  show n ++ ":" ++ jsonStringify (.obj ((sortFields f1).map normPair))
      = n ++ ":" ++ jsonStringify (.obj ((sortFields f2).map normPair))
  rw [map_normPair_sortFields, map_normPair_sortFields, hkey]

/-- Witness for C3 (amended) at a concrete input: `\x7bB:"Foo ", a:1\x7d`
and `\x7ba:1, B:"foo"\x7d` collide. -/
theorem c3_fingerprint_stable_top_level_witness :
    stableArgsHash "add_task" (.obj [("B", .str "Foo "), ("a", .num 1)])
      = stableArgsHash "add_task" (.obj [("a", .num 1), ("B", .str "foo")]) :=
  by
  refine c3_fingerprint_stable_top_level "add_task"
    [("B", .str "Foo "), ("a", .num 1)] [("a", .num 1), ("B", .str "foo")]
    ?_ (by decide)
  have h1 : List.map normPair [(("B" : String), Json.str "Foo "), ("a", Json.num 1)]
      = [("B", Json.str "foo"), ("a", Json.num 1)] := rfl
  have h2 : List.map normPair [(("a" : String), Json.num 1), ("B", Json.str "foo")]
      = [("a", Json.num 1), ("B", Json.str "foo")] := rfl
  rw [h1, h2]
  exact List.Perm.swap ("a", Json.num 1) ("B", Json.str "foo") []

/-- C3 as stated is false: two argument objects that differ **only in
the key order of a nested object** (their deep canonical forms coincide)
produce different fingerprints, because `stableArgsHash` normalises only
the top level. -/
theorem c3_counterexample :
    deepNormalize (.obj [("meta", .obj [("a", .num 1), ("b", .num 2)])])
      = deepNormalize (.obj [("meta", .obj [("b", .num 2), ("a", .num 1)])])
    ∧ stableArgsHash "add_task" (.obj [("meta", .obj [("a", .num 1), ("b", .num 2)])])
      ≠ stableArgsHash "add_task" (.obj [("meta", .obj [("b", .num 2), ("a", .num 1)])]) := by
  refine ⟨rfl, ?_⟩
  decide

/-! ## The pending-map sweep (claim C4) -/

lemma sweep_mem_iff (now : Nat) (m : List (String × PendingEntry))
    (k : String) (e : PendingEntry) :
    (k, e) ∈ (sweepPending now m).1 ↔
      ((k, e) ∈ m
        ∧ ¬(e.responded = true ∧ now - e.timestamp > DEDUP_WINDOW_MS)
        ∧ ¬(e.responded = false ∧ now - e.timestamp > MAX_PENDING_TOOL_MS)) := by
  induction m with
  | nil => simp [sweepPending]
  | cons kv rest ih =>
    obtain ⟨k0, e0⟩ := kv
    simp only [sweepPending]
    by_cases h1 : e0.responded = true ∧ now - e0.timestamp > DEDUP_WINDOW_MS
    · rw [if_pos h1]
      rw [ih]
      constructor
      · rintro ⟨hm, hne1, hne2⟩
        exact ⟨List.mem_cons_of_mem _ hm, hne1, hne2⟩
      · rintro ⟨hm, hne1, hne2⟩
        rcases List.mem_cons.mp hm with heq | hm
        · obtain ⟨hk, he⟩ := Prod.mk.injEq .. ▸ heq
          exact absurd (he ▸ h1) hne1
        · exact ⟨hm, hne1, hne2⟩
    · rw [if_neg h1]
      by_cases h2 : e0.responded = false ∧ now - e0.timestamp > MAX_PENDING_TOOL_MS
      · rw [if_pos h2]
        rw [ih]
        constructor
        · rintro ⟨hm, hne1, hne2⟩
          exact ⟨List.mem_cons_of_mem _ hm, hne1, hne2⟩
        · rintro ⟨hm, hne1, hne2⟩
          rcases List.mem_cons.mp hm with heq | hm
          · obtain ⟨hk, he⟩ := Prod.mk.injEq .. ▸ heq
            exact absurd (he ▸ h2) hne2
          · exact ⟨hm, hne1, hne2⟩
      · rw [if_neg h2]
        simp only [List.mem_cons, ih]
        constructor
        · rintro (heq | ⟨hm, hne1, hne2⟩)
          · obtain ⟨hk, he⟩ := Prod.mk.injEq .. ▸ heq
            subst hk; subst he
            exact ⟨Or.inl rfl, h1, h2⟩
          · exact ⟨Or.inr hm, hne1, hne2⟩
        · rintro ⟨hm | hm, hne1, hne2⟩
          · exact Or.inl hm
          · exact Or.inr ⟨hm, hne1, hne2⟩

lemma sweepEntryOuts_canonical (e : PendingEntry) (g : UpId)
    (hg : e.geminiId = some g) :
    Output.toolResponse ⟨some g, e.name, timeoutErr e⟩ ∈ sweepEntryOuts e := by
  simp [sweepEntryOuts, hg]

lemma sweepEntryOuts_dup (e : PendingEntry) (g : UpId)
    (hg : some g ∈ e.duplicateGeminiIds) :
    Output.toolResponse ⟨some g, e.name, timeoutErr e⟩ ∈ sweepEntryOuts e := by
  simp only [sweepEntryOuts, List.mem_append]
  right
  exact List.mem_filterMap.mpr ⟨some g, hg, rfl⟩

lemma sweep_timeout_outs (now : Nat) (m : List (String × PendingEntry))
    (k : String) (e : PendingEntry) (hmem : (k, e) ∈ m)
    (hresp : e.responded = false)
    (hold : now - e.timestamp > MAX_PENDING_TOOL_MS) :
    ∀ o ∈ sweepEntryOuts e, o ∈ (sweepPending now m).2 := by
  induction m with
  | nil => cases hmem
  | cons kv rest ih =>
    obtain ⟨k0, e0⟩ := kv
    intro o ho
    rcases List.mem_cons.mp hmem with heq | hm
    · obtain ⟨hk, he⟩ := Prod.mk.injEq .. ▸ heq
      subst hk; subst he
      simp only [sweepPending]
      rw [if_neg (by simp [hresp]), if_pos ⟨hresp, hold⟩]
      exact List.mem_append.mpr (Or.inl ho)
    · have htail := ih hm o ho
      simp only [sweepPending]
      by_cases h1 : e0.responded = true ∧ now - e0.timestamp > DEDUP_WINDOW_MS
      · rw [if_pos h1]; exact htail
      · rw [if_neg h1]
        by_cases h2 : e0.responded = false ∧ now - e0.timestamp > MAX_PENDING_TOOL_MS
        · rw [if_pos h2]
          exact List.mem_append.mpr (Or.inr htail)
        · rw [if_neg h2]; exact htail

/-- C4: on every incoming upstream event the pending map is swept:
responded entries older than `DEDUP_WINDOW_MS` (10s) are dropped;
unresponded entries older than `MAX_PENDING_TOOL_MS` (30s in code) are
dropped after a synthesized timeout error response is emitted upstream
for the entry's original upstream id and for every queued duplicate
upstream id; every other entry is kept. -/
theorem c4_sweep_behaviour (now : Nat) (m : List (String × PendingEntry))
    (k : String) (e : PendingEntry) (hmem : (k, e) ∈ m) :
    (e.responded = true → now - e.timestamp > DEDUP_WINDOW_MS →
        (k, e) ∉ (sweepPending now m).1)
    ∧ (e.responded = false → now - e.timestamp > MAX_PENDING_TOOL_MS →
        (k, e) ∉ (sweepPending now m).1
        ∧ (∀ g, e.geminiId = some g →
            Output.toolResponse ⟨some g, e.name, timeoutErr e⟩ ∈ (sweepPending now m).2)
        ∧ (∀ g, some g ∈ e.duplicateGeminiIds →
            Output.toolResponse ⟨some g, e.name, timeoutErr e⟩ ∈ (sweepPending now m).2))
    ∧ (¬(e.responded = true ∧ now - e.timestamp > DEDUP_WINDOW_MS) →
       ¬(e.responded = false ∧ now - e.timestamp > MAX_PENDING_TOOL_MS) →
        (k, e) ∈ (sweepPending now m).1) := by
  refine ⟨?_, ?_, ?_⟩
  · intro hr hold hmem1
    exact ((sweep_mem_iff now m k e).mp hmem1).2.1 ⟨hr, hold⟩
  · intro hr hold
    refine ⟨?_, ?_, ?_⟩
    · intro hmem1
      exact ((sweep_mem_iff now m k e).mp hmem1).2.2 ⟨hr, hold⟩
    · intro g hg
      exact sweep_timeout_outs now m k e hmem hr hold _
        (sweepEntryOuts_canonical e g hg)
    · intro g hg
      exact sweep_timeout_outs now m k e hmem hr hold _
        (sweepEntryOuts_dup e g hg)
  · intro h1 h2
    exact (sweep_mem_iff now m k e).mpr ⟨hmem, h1, h2⟩

/-- A responded entry, 0ms old (for the C4 witness). -/
def entryResponded : PendingEntry :=
  { originalId := (1, 0), geminiId := some "g1", duplicateIds := [],
    duplicateGeminiIds := [], name := "add_task", timestamp := 0,
    result := some (.obj [("success", .bool true)]), responded := true }

/-- An unresponded entry with one queued duplicate (for the C4 witness). -/
def entryPendingOld : PendingEntry :=
  { originalId := (2, 0), geminiId := some "g2", duplicateIds := [(3, 5)],
    duplicateGeminiIds := [some "g3"], name := "add_task", timestamp := 0,
    result := none, responded := false }

/-- Witness for C4 at a concrete map and time 40s: the stale responded
entry is dropped, the expired unresponded entry is dropped, and timeout
errors go upstream for its original id and its queued duplicate id. -/
theorem c4_sweep_behaviour_witness :
    (("k1", entryResponded)
        ∉ (sweepPending 40000 [("k1", entryResponded), ("k2", entryPendingOld)]).1)
    ∧ (("k2", entryPendingOld)
        ∉ (sweepPending 40000 [("k1", entryResponded), ("k2", entryPendingOld)]).1)
    ∧ Output.toolResponse ⟨some "g2", entryPendingOld.name, timeoutErr entryPendingOld⟩
        ∈ (sweepPending 40000 [("k1", entryResponded), ("k2", entryPendingOld)]).2
    ∧ Output.toolResponse ⟨some "g3", entryPendingOld.name, timeoutErr entryPendingOld⟩
        ∈ (sweepPending 40000 [("k1", entryResponded), ("k2", entryPendingOld)]).2 := by
  have h1 := c4_sweep_behaviour 40000
    [("k1", entryResponded), ("k2", entryPendingOld)] "k1" entryResponded
    (List.mem_cons_self _ _)
  have h2 := c4_sweep_behaviour 40000
    [("k1", entryResponded), ("k2", entryPendingOld)] "k2" entryPendingOld
    (List.mem_cons_of_mem _ (List.mem_cons_self _ _))
  refine ⟨h1.1 rfl (by decide), (h2.2.1 rfl (by decide)).1,
    (h2.2.1 rfl (by decide)).2.1 "g2" rfl, (h2.2.1 rfl (by decide)).2.2 "g3" ?_⟩
  simp [entryPendingOld]

/-! ## The completion path (claims C8 and C9) -/

lemma completeInMap_no_match (r : ClientResp)
    (m : List (String × PendingEntry))
    (h : ∀ kv ∈ m, kv.2.originalId ≠ r.id) :
    completeInMap r m = (m, [], []) := by
  induction m with
  | nil => rfl
  | cons kv rest ih =>
    obtain ⟨k0, e0⟩ := kv
    have hne : ¬ e0.originalId = r.id := h (k0, e0) (List.mem_cons_self _ _)
    simp only [completeInMap, if_neg hne]
    rw [ih (fun kv hkv => h kv (List.mem_cons_of_mem _ hkv))]

lemma completeInMap_responded (r : ClientResp)
    (m : List (String × PendingEntry)) (k : String) (e : PendingEntry)
    (hfind : m.find? (fun kv => decide (kv.2.originalId = r.id)) = some (k, e))
    (hresp : e.responded = true) :
    completeInMap r m = (m, [], []) := by
  induction m with
  | nil => cases hfind
  | cons kv rest ih =>
    obtain ⟨k0, e0⟩ := kv
    by_cases hid : e0.originalId = r.id
    · rw [List.find?_cons_of_pos _ (by simpa using hid)] at hfind
      obtain ⟨hk, he⟩ := Prod.mk.injEq .. ▸ (Option.some.injEq .. ▸ hfind)
      simp only [completeInMap, if_pos hid]
      rw [if_pos (by rw [← he] at hresp; exact hresp)]
    · rw [List.find?_cons_of_neg _ (by simpa using hid)] at hfind
      simp only [completeInMap, if_neg hid]
      rw [ih hfind]

lemma completeAll_nochange (s : SessionState) (rs : List ClientResp)
    (h : ∀ r ∈ rs, completeInMap r s.pendingToolCalls = (s.pendingToolCalls, [], [])) :
    completeAll s rs = (s, [], []) := by
  induction rs with
  | nil => rfl
  | cons r rest ih =>
    simp only [completeAll, h r (List.mem_cons_self _ _)]
    have hs : ({ s with pendingToolCalls := s.pendingToolCalls } : SessionState) = s := rfl
    rw [hs, ih (fun r2 hr2 => h r2 (List.mem_cons_of_mem _ hr2))]
    simp

/-- C8: delivering a client tool result for an internal id whose pending
entry is already `responded` is a no-op: the session state (map entries,
cached result, duplicate lists) is unchanged and nothing is sent
upstream. -/
theorem c8_completion_idempotent (s : SessionState) (r : ClientResp)
    (k : String) (e : PendingEntry)
    (hfind : s.pendingToolCalls.find? (fun kv => decide (kv.2.originalId = r.id))
      = some (k, e))
    (hresp : e.responded = true) :
    stepEvent s (.clientResponses [r]) = (s, []) := by
  have h1 : completeAll s [r] = (s, [], []) := by
    refine completeAll_nochange s [r] ?_
    intro r2 hr2
    rcases List.mem_singleton.mp hr2 with rfl
    exact completeInMap_responded r2 _ k e hfind hresp
  simp [stepEvent, stepToolResponses, h1]

/-- A responded entry matched by the C8 witness response. -/
def entryRespondedW : PendingEntry :=
  { originalId := (7, 100), geminiId := some "g7", duplicateIds := [(8, 200)],
    duplicateGeminiIds := [some "g8"], name := "add_task", timestamp := 100,
    result := some (.obj [("success", .bool true)]), responded := true }

/-- The session state of the C8/C9 witnesses. -/
def sessionW : SessionState :=
  { initState with pendingToolCalls := [("kw", entryRespondedW)] }

/-- Witness for C8: a second client result for the already-responded
entry changes nothing and sends nothing. -/
theorem c8_completion_idempotent_witness :
    stepEvent sessionW
      (.clientResponses [⟨(7, 100), "add_task", .obj [("result", .obj [])]⟩])
      = (sessionW, []) := by
  refine c8_completion_idempotent sessionW _ "kw" entryRespondedW ?_ rfl
  rfl

/-- C9: a client `toolResponse` whose response ids match no pending
entry's `originalId` is silently dropped: nothing is sent upstream and
the pending map (indeed the whole session state) is unchanged. -/
theorem c9_unmatched_response_dropped (s : SessionState) (rs : List ClientResp)
    (h : ∀ r ∈ rs, ∀ kv ∈ s.pendingToolCalls, kv.2.originalId ≠ r.id) :
    stepEvent s (.clientResponses rs) = (s, []) := by
  have h1 : completeAll s rs = (s, [], []) := by
    refine completeAll_nochange s rs ?_
    intro r hr
    exact completeInMap_no_match r _ (h r hr)
  simp [stepEvent, stepToolResponses, h1]

/-- Witness for C9: a response with an unknown internal id is dropped. -/
theorem c9_unmatched_response_dropped_witness :
    stepEvent sessionW
      (.clientResponses [⟨(99, 99), "add_task", .obj [("result", .obj [])]⟩])
      = (sessionW, []) := by
  refine c9_unmatched_response_dropped sessionW _ ?_
  intro r hr kv hkv
  rcases List.mem_singleton.mp hr with rfl
  have : kv = ("kw", entryRespondedW) := by
    simpa [sessionW, initState] using hkv
  rw [this]
  decide

/-! ## Server-only `log_thought` calls (claim C5) -/

lemma sweepEntryOuts_shape (e : PendingEntry) :
    ∀ o ∈ sweepEntryOuts e, ∃ fr, o = Output.toolResponse fr := by
  intro o ho
  rcases List.mem_append.mp ho with h | h
  · cases hg : e.geminiId with
    | none => rw [hg] at h; cases h
    | some g =>
      rw [hg] at h
      rcases List.mem_singleton.mp h with rfl
      exact ⟨_, rfl⟩
  · obtain ⟨d, hd, heq⟩ := List.mem_filterMap.mp h
    cases d with
    | none => cases heq
    | some g =>
      rcases Option.some.injEq .. ▸ heq with rfl
      exact ⟨_, rfl⟩

lemma sweep_outs_shape (now : Nat) (m : List (String × PendingEntry)) :
    ∀ o ∈ (sweepPending now m).2, ∃ fr, o = Output.toolResponse fr := by
  induction m with
  | nil => intro o ho; cases ho
  | cons kv rest ih =>
    obtain ⟨k0, e0⟩ := kv
    intro o ho
    simp only [sweepPending] at ho
    by_cases h1 : e0.responded = true ∧ now - e0.timestamp > DEDUP_WINDOW_MS
    · rw [if_pos h1] at ho; exact ih o ho
    · rw [if_neg h1] at ho
      by_cases h2 : e0.responded = false ∧ now - e0.timestamp > MAX_PENDING_TOOL_MS
      · rw [if_pos h2] at ho
        rcases List.mem_append.mp ho with h | h
        · exact sweepEntryOuts_shape e0 o h
        · exact ih o h
      · rw [if_neg h2] at ho; exact ih o ho

/-- The outputs of the server-only `log_thought` branch for one call:
the thought notification (when the client socket is open) followed by
the immediate success response upstream under the call's own id. -/
def thoughtOuts (isOpen : Bool) (c : Call) : List Output :=
  (if isOpen then
    [Output.clientThought (getStrField c.args "thought")
      (jsOrStr (getStrField c.args "type") "reasoning")]
   else [])
  ++ [Output.toolResponse ⟨c.id, c.name,
        .obj [("result", .obj [("success", .bool true)])]⟩]

lemma processCalls_thought_batch (now : Nat) (s : SessionState) :
    ∀ calls : List Call, (∀ c ∈ calls, c.name = "log_thought") →
    processCalls now s calls
      = (s, calls.flatMap (thoughtOuts s.clientOpen), [], false) := by
  intro calls
  induction calls with
  | nil => intro _; rfl
  | cons c rest ih =>
    intro hall
    have hc : c.name = "log_thought" := hall c (List.mem_cons_self _ _)
    have hrest := ih (fun c2 hc2 => hall c2 (List.mem_cons_of_mem _ hc2))
    simp only [processCalls, if_pos hc, hrest, List.flatMap_cons]
    simp [thoughtOuts, hc]

lemma emitActivity_state (s : SessionState) (st : ActivityState) :
    (emitActivity s st).1.pendingToolCalls = s.pendingToolCalls
    ∧ (emitActivity s st).1.recentActions = s.recentActions
    ∧ (emitActivity s st).1.clientOpen = s.clientOpen
    ∧ (emitActivity s st).1.currentInputTranscript = s.currentInputTranscript
    ∧ (emitActivity s st).1.lastFinalInputTranscript = s.lastFinalInputTranscript
    ∧ (emitActivity s st).1.toolIdCounter = s.toolIdCounter := by
  unfold emitActivity
  split <;> exact ⟨rfl, rfl, rfl, rfl, rfl, rfl⟩

lemma emitActivity_outs (s : SessionState) (st : ActivityState) :
    ∀ o ∈ (emitActivity s st).2, o = Output.clientActivity st := by
  unfold emitActivity
  split
  · intro o ho; cases ho
  · split
    · intro o ho; rcases List.mem_singleton.mp ho with rfl; rfl
    · intro o ho; cases ho

/-- Equation for the tool-call handler on a batch made only of
`log_thought` calls: the state is only touched by the sweep, the
activity transition, and the action-key expiry; the loop contributes the
per-call thought/success outputs; nothing is forwarded. -/
lemma stepToolCall_thought_batch (s : SessionState) (now : Nat)
    (calls : List Call) (hall : ∀ c ∈ calls, c.name = "log_thought") :
    stepToolCall s now calls
      = (let sw := sweepPending now s.pendingToolCalls
         let ea := emitActivity { s with pendingToolCalls := sw.1 } .thinking
         let ra := ea.1.recentActions.filter (fun kv => decide (now - kv.2 ≤ ACTION_DEDUP_WINDOW_MS))
         ({ ea.1 with recentActions := ra },
          sw.2 ++ ea.2 ++ calls.flatMap (thoughtOuts s.clientOpen))) := by
  rcases hsw : sweepPending now s.pendingToolCalls with ⟨m1, swOuts⟩
  rcases hea : emitActivity { s with pendingToolCalls := m1 } .thinking with ⟨sA, aOuts⟩
  have hopenA : sA.clientOpen = s.clientOpen := by
    have := (emitActivity_state { s with pendingToolCalls := m1 } .thinking).2.2.1
    rw [hea] at this
    exact this
  simp only [stepToolCall, hsw, hea]
  rw [processCalls_thought_batch now _ calls hall]
  simp [hopenA]

/-- C5: an incoming `log_thought` call is handled entirely server-side:
no tool-call message is forwarded to the client tool channel, no pending
entry is created, a `\x7btype:"thought"\x7d` message goes to the client,
and a success tool response is immediately sent upstream under the
call's own upstream id. -/
theorem c5_log_thought_server_only (s : SessionState) (now : Nat)
    (calls : List Call) (hopen : s.clientOpen = true)
    (hall : ∀ c ∈ calls, c.name = "log_thought") :
    (stepToolCall s now calls).1.pendingToolCalls
        = (sweepPending now s.pendingToolCalls).1
    ∧ (∀ cs, Output.forwardCalls cs ∉ (stepToolCall s now calls).2)
    ∧ (∀ c ∈ calls,
        Output.clientThought (getStrField c.args "thought")
            (jsOrStr (getStrField c.args "type") "reasoning")
          ∈ (stepToolCall s now calls).2
        ∧ Output.toolResponse ⟨c.id, c.name,
            .obj [("result", .obj [("success", .bool true)])]⟩
          ∈ (stepToolCall s now calls).2) := by
  rw [stepToolCall_thought_batch s now calls hall]
  refine ⟨?_, ?_, ?_⟩
  · exact (emitActivity_state _ _).1
  · intro cs hcs
    rcases List.mem_append.mp hcs with h | h
    · rcases List.mem_append.mp h with h2 | h2
      · obtain ⟨fr, hfr⟩ := sweep_outs_shape now s.pendingToolCalls _ h2
        cases hfr
      · have := emitActivity_outs _ _ _ h2
        cases this
    · obtain ⟨c, _, hco⟩ := List.mem_flatMap.mp h
      simp [thoughtOuts, hopen] at hco
  · intro c hc
    constructor
    · refine List.mem_append.mpr (Or.inr ?_)
      refine List.mem_flatMap.mpr ⟨c, hc, ?_⟩
      simp [thoughtOuts, hopen]
    · refine List.mem_append.mpr (Or.inr ?_)
      refine List.mem_flatMap.mpr ⟨c, hc, ?_⟩
      simp [thoughtOuts, hopen]

/-- Witness for C5 at a concrete `log_thought` call on a fresh session. -/
theorem c5_log_thought_server_only_witness :
    (stepToolCall initState 0
        [⟨some "t1", "log_thought", some (.obj [("thought", .str "checking tasks")])⟩]).1.pendingToolCalls
      = []
    ∧ Output.toolResponse ⟨some "t1", "log_thought",
        .obj [("result", .obj [("success", .bool true)])]⟩
      ∈ (stepToolCall initState 0
        [⟨some "t1", "log_thought", some (.obj [("thought", .str "checking tasks")])⟩]).2 := by
  have h := c5_log_thought_server_only initState 0
    [⟨some "t1", "log_thought", some (.obj [("thought", .str "checking tasks")])⟩]
    rfl (by intro c hc; rcases List.mem_singleton.mp hc with rfl; rfl)
  exact ⟨h.1.trans rfl, (h.2.2 _ (List.mem_singleton.mpr rfl)).2⟩

/-! ## The missing-id branch (claims C6 and C10) -/

lemma missingIdStep_state (s : SessionState) (name : String) :
    (missingIdStep s name).1.pendingToolCalls = s.pendingToolCalls
    ∧ (missingIdStep s name).1.recentActions = s.recentActions
    ∧ (missingIdStep s name).1.clientOpen = s.clientOpen := by
  simp only [missingIdStep]
  split
  · split <;> exact ⟨rfl, rfl, rfl⟩
  · exact ⟨rfl, rfl, rfl⟩

lemma missingIdStep_zero_responses (s : SessionState) (name : String)
    (u : UpId) : countResponsesTo u (missingIdStep s name).2 = 0 := by
  simp only [missingIdStep]
  split
  · split <;> rfl
  · rfl

lemma countResponsesTo_append (u : UpId) (xs ys : List Output) :
    countResponsesTo u (xs ++ ys)
      = countResponsesTo u xs + countResponsesTo u ys := by
  induction xs with
  | nil => simp [countResponsesTo]
  | cons o rest ih =>
    cases o <;> simp [countResponsesTo, ih] <;> omega

lemma emitActivity_zero_responses (s : SessionState) (st : ActivityState)
    (u : UpId) : countResponsesTo u (emitActivity s st).2 = 0 := by
  unfold emitActivity
  split
  · rfl
  · split <;> rfl

lemma alistGet_some_mem {α : Type} (m : List (String × α)) (k : String)
    (v : α) (h : alistGet m k = some v) : (k, v) ∈ m := by
  induction m with
  | nil => cases h
  | cons kv rest ih =>
    obtain ⟨k1, v1⟩ := kv
    by_cases hk : k1 = k
    · subst hk
      unfold alistGet at h
      rw [List.find?_cons_of_pos _ (by simp)] at h
      simp only [Option.map_some', Option.some.injEq] at h
      subst h
      exact List.mem_cons_self _ _
    · unfold alistGet at h
      rw [List.find?_cons_of_neg _ (by simpa using hk)] at h
      exact List.mem_cons_of_mem _ (ih h)

/-! ## Equation lemmas for the per-call loop -/

/-- State change of registering a genuinely new call: bump the counter,
insert the fresh pending entry under the args fingerprint, record the
action key (when the tool has one). -/
def registerState (s : SessionState) (now : Nat) (fc : Call) (gid : UpId)
    : SessionState :=
  let key := stableArgsHash fc.name (fc.args.getD (.obj []))
  let entry : PendingEntry :=
    { originalId := (s.toolIdCounter + 1, now), geminiId := some gid,
      duplicateIds := [], duplicateGeminiIds := [], name := fc.name,
      timestamp := now, result := none, responded := false }
  let ra := match actionKey fc.name fc.args with
    | some k => alistSet s.recentActions k now
    | none => s.recentActions
  { s with toolIdCounter := s.toolIdCounter + 1,
           pendingToolCalls := alistSet s.pendingToolCalls key entry,
           recentActions := ra }

/-- State change of recording an exact duplicate against an existing
entry: bump the counter and push the new internal/upstream ids onto the
duplicate lists. -/
def dupRecordState (s : SessionState) (now : Nat) (fc : Call) (gid : UpId)
    (existing : PendingEntry) : SessionState :=
  let key := stableArgsHash fc.name (fc.args.getD (.obj []))
  let upd := { existing with
    duplicateIds := existing.duplicateIds ++ [(s.toolIdCounter + 1, now)],
    duplicateGeminiIds := existing.duplicateGeminiIds ++ [some gid] }
  { s with toolIdCounter := s.toolIdCounter + 1,
           pendingToolCalls := alistSet s.pendingToolCalls key upd }

/-- The immediate upstream answer a duplicate receives when the existing
entry already caches a result (nothing otherwise). -/
def dupCacheOuts (fc : Call) (gid : UpId) (existing : PendingEntry)
    : List Output :=
  match existing.result with
  | some r => [Output.toolResponse ⟨some gid, fc.name, .obj [("result", r)]⟩]
  | none => []

/-- The synthetic success answer of the semantic (action-key) dedup. -/
def semanticOut (fc : Call) (gid : UpId) : Output :=
  Output.toolResponse ⟨some gid, fc.name,
    .obj [("result", .obj [("success", .bool true),
      ("note", .str "Already processed similar request")])]⟩

lemma processCalls_nil (now : Nat) (s : SessionState) :
    processCalls now s [] = (s, [], [], false) := rfl

lemma processCalls_cons_thought (now : Nat) (s : SessionState) (fc : Call)
    (rest : List Call) (hname : fc.name = "log_thought") :
    processCalls now s (fc :: rest)
      = (let r := processCalls now s rest
         (r.1, thoughtOuts s.clientOpen fc ++ r.2.1, r.2.2.1, r.2.2.2)) := by
  rcases hpr : processCalls now s rest with ⟨s2, outs2, uniq, ab⟩
  simp only [processCalls, if_pos hname, hpr, thoughtOuts]

lemma processCalls_cons_missing (now : Nat) (s : SessionState) (fc : Call)
    (rest : List Call) (hname : ¬ fc.name = "log_thought")
    (hid : fc.id = none) :
    processCalls now s (fc :: rest)
      = ((missingIdStep s fc.name).1, (missingIdStep s fc.name).2, [], true) := by
  simp only [processCalls, if_neg hname, hid]

lemma processCalls_cons_dup (now : Nat) (s : SessionState) (fc : Call)
    (rest : List Call) (gid : UpId) (existing : PendingEntry)
    (hname : ¬ fc.name = "log_thought") (hid : fc.id = some gid)
    (hlook : alistGet s.pendingToolCalls
      (stableArgsHash fc.name (fc.args.getD (.obj []))) = some existing) :
    processCalls now s (fc :: rest)
      = (let r := processCalls now (dupRecordState s now fc gid existing) rest
         (r.1, dupCacheOuts fc gid existing ++ r.2.1, r.2.2.1, r.2.2.2)) := by
  rcases hpr : processCalls now (dupRecordState s now fc gid existing) rest with ⟨s3, outs2, uniq, ab⟩
  simp only [dupRecordState] at hpr
  simp only [processCalls, if_neg hname, hid, hlook, hpr, dupRecordState, dupCacheOuts]

lemma processCalls_cons_semantic (now : Nat) (s : SessionState) (fc : Call)
    (rest : List Call) (gid : UpId)
    (hname : ¬ fc.name = "log_thought") (hid : fc.id = some gid)
    (hlook : alistGet s.pendingToolCalls
      (stableArgsHash fc.name (fc.args.getD (.obj []))) = none)
    (hcond : (actionKey fc.name fc.args).isSome = true
      ∧ (alistGet s.recentActions
          ((actionKey fc.name fc.args).getD "")).isSome = true) :
    processCalls now s (fc :: rest)
      = (let r := processCalls now { s with toolIdCounter := s.toolIdCounter + 1 } rest
         (r.1, semanticOut fc gid :: r.2.1, r.2.2.1, r.2.2.2)) := by
  rcases hpr : processCalls now { s with toolIdCounter := s.toolIdCounter + 1 } rest with ⟨s3, outs2, uniq, ab⟩
  simp only [processCalls, if_neg hname, hid, hlook, if_pos hcond, hpr,
    semanticOut, List.singleton_append]

lemma processCalls_cons_register (now : Nat) (s : SessionState) (fc : Call)
    (rest : List Call) (gid : UpId)
    (hname : ¬ fc.name = "log_thought") (hid : fc.id = some gid)
    (hlook : alistGet s.pendingToolCalls
      (stableArgsHash fc.name (fc.args.getD (.obj []))) = none)
    (hcond : ¬ ((actionKey fc.name fc.args).isSome = true
      ∧ (alistGet s.recentActions
          ((actionKey fc.name fc.args).getD "")).isSome = true)) :
    processCalls now s (fc :: rest)
      = (let r := processCalls now (registerState s now fc gid) rest
         (r.1, r.2.1,
          (⟨(s.toolIdCounter + 1, now), fc.name, fc.args⟩ : FwdCall) :: r.2.2.1,
          r.2.2.2)) := by
  rcases hpr : processCalls now (registerState s now fc gid) rest with ⟨s3, outs2, uniq, ab⟩
  simp only [registerState] at hpr
  simp only [processCalls, if_neg hname, hid, hlook, if_neg hcond, hpr, registerState]

/-- Decomposition of the `toolCall` handler into sweep, activity
transition, action-key expiry, per-call loop, and conditional forward. -/
lemma stepToolCall_eq (s : SessionState) (now : Nat) (calls : List Call) :
    stepToolCall s now calls
      = (let sw := sweepPending now s.pendingToolCalls
         let ea := emitActivity { s with pendingToolCalls := sw.1 } .thinking
         let ra := ea.1.recentActions.filter (fun kv => decide (now - kv.2 ≤ ACTION_DEDUP_WINDOW_MS))
         let pr := processCalls now { ea.1 with recentActions := ra } calls
         let fwd := if pr.2.2.2 then []
           else if pr.2.2.1.isEmpty then []
           else if pr.1.clientOpen then [Output.forwardCalls pr.2.2.1] else []
         (pr.1, sw.2 ++ ea.2 ++ pr.2.1 ++ fwd)) := by
  rcases hsw : sweepPending now s.pendingToolCalls with ⟨m1, swOuts⟩
  rcases hea : emitActivity { s with pendingToolCalls := m1 } .thinking with ⟨sA, aOuts⟩
  rcases hpr : processCalls now { sA with recentActions := sA.recentActions.filter (fun kv => decide (now - kv.2 ≤ ACTION_DEDUP_WINDOW_MS)) } calls with ⟨s4, callOuts, uniq, ab⟩
  simp only [stepToolCall, hsw, hea, hpr]

/-! ## Claims C6 and C10: the missing-id branch and the early return -/

lemma alistGet_alistSet_self {α : Type} (m : List (String × α)) (k : String)
    (v : α) : alistGet (alistSet m k v) k = some v := by
  induction m with
  | nil => simp [alistGet, alistSet]
  | cons kv rest ih =>
    by_cases hk : kv.1 = k
    · simp [alistSet, hk, alistGet]
    · simp only [alistSet, if_neg hk]
      unfold alistGet
      rw [List.find?_cons_of_neg _ (by simpa using hk)]
      exact ih

lemma missingIdStep_outs (s : SessionState) (n : String)
    (hopen : s.clientOpen = true) :
    (missingIdStep s n).2
      = (if jsTrim (jsOrStr s.lastFinalInputTranscript s.currentInputTranscript) = ""
         then [Output.clientError (missingIdError n)]
         else [Output.clientError (missingIdError n),
               Output.clientFallback
                 (jsTrim (jsOrStr s.lastFinalInputTranscript s.currentInputTranscript))]) := by
  simp only [missingIdStep]
  rw [if_pos hopen]
  split <;> rfl

lemma missingIdStep_outs_shape (s : SessionState) (n : String) :
    ∀ o ∈ (missingIdStep s n).2,
      o = Output.clientError (missingIdError n)
      ∨ ∃ t, o = Output.clientFallback t := by
  simp only [missingIdStep]
  split
  · split
    · intro o ho
      rcases List.mem_singleton.mp ho with rfl
      exact Or.inl rfl
    · intro o ho
      rcases List.mem_cons.mp ho with rfl | ho
      · exact Or.inl rfl
      · rcases List.mem_singleton.mp ho with rfl
        exact Or.inr ⟨_, rfl⟩
  · intro o ho; cases ho

/-- The error message is always among the missing-id branch outputs when
the client socket is open. -/
lemma missingIdStep_error_mem (s : SessionState) (n : String)
    (hopen : s.clientOpen = true) :
    Output.clientError (missingIdError n) ∈ (missingIdStep s n).2 := by
  rw [missingIdStep_outs s n hopen]
  split
  · exact List.mem_singleton.mpr rfl
  · exact List.mem_cons_self _ _

/-- The fallback message is among the missing-id branch outputs exactly
when the trimmed cached transcript is non-empty. -/
lemma missingIdStep_fallback_mem (s : SessionState) (n : String)
    (hopen : s.clientOpen = true)
    (hfb : ¬ jsTrim (jsOrStr s.lastFinalInputTranscript s.currentInputTranscript) = "") :
    Output.clientFallback
      (jsTrim (jsOrStr s.lastFinalInputTranscript s.currentInputTranscript))
      ∈ (missingIdStep s n).2 := by
  rw [missingIdStep_outs s n hopen, if_neg hfb]
  exact List.mem_cons_of_mem _ (List.mem_singleton.mpr rfl)

/-- C6 (amended): for a non-`log_thought` call with missing id on an
open client socket, the proxy always sends a `\x7btype:"error"\x7d`
message; it additionally sends a `\x7btype:"fallback_text"\x7d` message
carrying the trimmed last known user utterance exactly when that
transcript is non-empty; and no pending entry is created for the call. -/
theorem c6_missing_id_branch (s : SessionState) (now : Nat) (c : Call)
    (hopen : s.clientOpen = true) (hname : ¬ c.name = "log_thought")
    (hid : c.id = none) :
    Output.clientError (missingIdError c.name) ∈ (stepToolCall s now [c]).2
    ∧ (jsTrim (jsOrStr s.lastFinalInputTranscript s.currentInputTranscript) ≠ "" →
        Output.clientFallback
          (jsTrim (jsOrStr s.lastFinalInputTranscript s.currentInputTranscript))
          ∈ (stepToolCall s now [c]).2)
    ∧ (stepToolCall s now [c]).1.pendingToolCalls
        = (sweepPending now s.pendingToolCalls).1 := by
  rcases hsw : sweepPending now s.pendingToolCalls with ⟨m1, swOuts⟩
  rcases hea : emitActivity { s with pendingToolCalls := m1 } .thinking with ⟨sA, aOuts⟩
  have hes := emitActivity_state { s with pendingToolCalls := m1 } .thinking
  rw [hea] at hes
  have hopenA : sA.clientOpen = true := by
    have h2 : sA.clientOpen = s.clientOpen := hes.2.2.1
    rw [h2]; exact hopen
  have hcur : sA.currentInputTranscript = s.currentInputTranscript := hes.2.2.2.1
  have hlf : sA.lastFinalInputTranscript = s.lastFinalInputTranscript := hes.2.2.2.2.1
  have hpendA : sA.pendingToolCalls = m1 := hes.1
  have hstep : stepToolCall s now [c]
      = ((missingIdStep { sA with recentActions := sA.recentActions.filter (fun kv => decide (now - kv.2 ≤ ACTION_DEDUP_WINDOW_MS)) } c.name).1,
         swOuts ++ aOuts ++ (missingIdStep { sA with recentActions := sA.recentActions.filter (fun kv => decide (now - kv.2 ≤ ACTION_DEDUP_WINDOW_MS)) } c.name).2 ++ []) := by
    rw [stepToolCall_eq]
    simp only [hsw, hea]
    rw [processCalls_cons_missing now _ c [] hname hid]
    rfl
  rw [hstep]
  have htr : jsTrim (jsOrStr ({ sA with recentActions := sA.recentActions.filter (fun kv => decide (now - kv.2 ≤ ACTION_DEDUP_WINDOW_MS)) } : SessionState).lastFinalInputTranscript ({ sA with recentActions := sA.recentActions.filter (fun kv => decide (now - kv.2 ≤ ACTION_DEDUP_WINDOW_MS)) } : SessionState).currentInputTranscript) = jsTrim (jsOrStr s.lastFinalInputTranscript s.currentInputTranscript) := by
    have h1 : ({ sA with recentActions := sA.recentActions.filter (fun kv => decide (now - kv.2 ≤ ACTION_DEDUP_WINDOW_MS)) } : SessionState).lastFinalInputTranscript = s.lastFinalInputTranscript := hlf
    have h2 : ({ sA with recentActions := sA.recentActions.filter (fun kv => decide (now - kv.2 ≤ ACTION_DEDUP_WINDOW_MS)) } : SessionState).currentInputTranscript = s.currentInputTranscript := hcur
    rw [h1, h2]
  refine ⟨?_, ?_, ?_⟩
  · refine List.mem_append.mpr (Or.inl (List.mem_append.mpr (Or.inr ?_)))
    exact missingIdStep_error_mem _ c.name hopenA
  · intro hfb
    have hm := missingIdStep_fallback_mem { sA with recentActions := sA.recentActions.filter (fun kv => decide (now - kv.2 ≤ ACTION_DEDUP_WINDOW_MS)) } c.name hopenA (by rw [htr]; exact hfb)
    rw [htr] at hm
    exact List.mem_append.mpr (Or.inl (List.mem_append.mpr (Or.inr hm)))
  · rw [(missingIdStep_state _ c.name).1]
    show sA.pendingToolCalls = (m1, swOuts).1
    exact hpendA

/-- Any message of type `fallback_text` among the outputs. -/
def hasFallbackMsg (outs : List Output) : Bool :=
  outs.any (fun o => match o with | .clientFallback _ => true | _ => false)

/-- C6 as stated is false: when no user utterance transcript is known
(fresh session), a missing-id call produces only the error message — no
`fallback_text` message is sent to the client. -/
theorem c6_counterexample :
    Output.clientError (missingIdError "add_task")
      ∈ (stepToolCall initState 0 [⟨none, "add_task", none⟩]).2
    ∧ hasFallbackMsg (stepToolCall initState 0 [⟨none, "add_task", none⟩]).2
      = false := by
  constructor
  · show Output.clientError (missingIdError "add_task")
      ∈ [Output.clientActivity .thinking,
         Output.clientError (missingIdError "add_task")]
    exact List.mem_cons_of_mem _ (List.mem_cons_self _ _)
  · rfl

/-- The session state of the C6 witness: a cached final utterance. -/
def sessionW6 : SessionState :=
  { initState with lastFinalInputTranscript := "call mom" }

/-- Witness for C6 (amended): with a known utterance, both the error and
the fallback text are sent. -/
theorem c6_missing_id_branch_witness :
    Output.clientError (missingIdError "add_task")
      ∈ (stepToolCall sessionW6 0 [⟨none, "add_task", none⟩]).2
    ∧ Output.clientFallback "call mom"
      ∈ (stepToolCall sessionW6 0 [⟨none, "add_task", none⟩]).2 := by
  have h := c6_missing_id_branch sessionW6 0 ⟨none, "add_task", none⟩ rfl
    (by decide) rfl
  exact ⟨h.1, h.2.1 (by decide)⟩

lemma stepEvent_other_outs (st : SessionState) (t : Nat) :
    (stepEvent st (.upstreamOther t)).2 = (sweepPending t st.pendingToolCalls).2 := by
  rcases hsw : sweepPending t st.pendingToolCalls with ⟨m, o⟩
  simp [stepEvent, hsw]

/-- The pending entry registered for the C10 scenario's good call. -/
def freshEntry (ctr now : Nat) (gid : UpId) (n : String) : PendingEntry :=
  { originalId := (ctr + 1, now), geminiId := some gid, duplicateIds := [],
    duplicateGeminiIds := [], name := n, timestamp := now, result := none,
    responded := false }

/-- C10: when a batch holds a genuinely-new call followed by a
non-`log_thought` call with a missing id, the handler returns before the
forwarding step: nothing from the batch reaches the client, no upstream
response is produced for the new call in this step, yet its freshly
registered pending entry and action key stay in the maps, and a sweep
past `MAX_PENDING_TOOL_MS` later answers its upstream id with a timeout
error. -/
theorem c10_abort_skips_forward (s : SessionState) (now now2 : Nat)
    (g b : Call) (gid : UpId)
    (hmap : s.pendingToolCalls = [])
    (hgname : ¬ g.name = "log_thought") (hgid : g.id = some gid)
    (hact : ∀ k, actionKey g.name g.args = some k →
      alistGet (s.recentActions.filter
        (fun kv => decide (now - kv.2 ≤ ACTION_DEDUP_WINDOW_MS))) k = none)
    (hbname : ¬ b.name = "log_thought") (hbid : b.id = none)
    (hlate : now2 - now > MAX_PENDING_TOOL_MS) :
    (∀ cs, Output.forwardCalls cs ∉ (stepToolCall s now [g, b]).2)
    ∧ countResponsesTo gid (stepToolCall s now [g, b]).2 = 0
    ∧ (stepToolCall s now [g, b]).1.pendingToolCalls
        = [(stableArgsHash g.name (g.args.getD (.obj [])),
            freshEntry s.toolIdCounter now gid g.name)]
    ∧ (∀ k, actionKey g.name g.args = some k →
        alistGet (stepToolCall s now [g, b]).1.recentActions k = some now)
    ∧ Output.toolResponse ⟨some gid, g.name,
        timeoutErr (freshEntry s.toolIdCounter now gid g.name)⟩
      ∈ (stepEvent (stepToolCall s now [g, b]).1 (.upstreamOther now2)).2 := by
  have hsw : sweepPending now s.pendingToolCalls = ([], []) := by rw [hmap]; rfl
  rcases hea : emitActivity { s with pendingToolCalls := [] } .thinking with ⟨sA, aOuts⟩
  have hes := emitActivity_state { s with pendingToolCalls := [] } .thinking
  rw [hea] at hes
  have hpendA : sA.pendingToolCalls = [] := hes.1
  have hraA : sA.recentActions = s.recentActions := hes.2.1
  have hctrA : sA.toolIdCounter = s.toolIdCounter := hes.2.2.2.2.2
  have haz : countResponsesTo gid aOuts = 0 := by
    have h2 := emitActivity_zero_responses { s with pendingToolCalls := [] } .thinking gid
    rw [hea] at h2
    exact h2
  have hao : ∀ o ∈ aOuts, o = Output.clientActivity .thinking := by
    have h2 := emitActivity_outs { s with pendingToolCalls := [] } .thinking
    rw [hea] at h2
    exact h2
  have hlookS : alistGet ({ sA with recentActions := sA.recentActions.filter (fun kv => decide (now - kv.2 ≤ ACTION_DEDUP_WINDOW_MS)) } : SessionState).pendingToolCalls (stableArgsHash g.name (g.args.getD (.obj []))) = none := by
    show alistGet sA.pendingToolCalls _ = none
    rw [hpendA]
    rfl
  have hcondS : ¬ ((actionKey g.name g.args).isSome = true ∧ (alistGet ({ sA with recentActions := sA.recentActions.filter (fun kv => decide (now - kv.2 ≤ ACTION_DEDUP_WINDOW_MS)) } : SessionState).recentActions ((actionKey g.name g.args).getD "")).isSome = true) := by
    rintro ⟨h1, h2⟩
    cases hk : actionKey g.name g.args with
    | none => rw [hk] at h1; cases h1
    | some k =>
      have hget := hact k hk
      rw [hk] at h2
      simp only [Option.getD] at h2
      have h3 : alistGet (({ sA with recentActions := sA.recentActions.filter (fun kv => decide (now - kv.2 ≤ ACTION_DEDUP_WINDOW_MS)) } : SessionState)).recentActions k = none := by
        show alistGet (sA.recentActions.filter (fun kv => decide (now - kv.2 ≤ ACTION_DEDUP_WINDOW_MS))) k = none
        rw [hraA]
        exact hget
      rw [h3] at h2
      cases h2
  have hstep : stepToolCall s now [g, b]
      = ((missingIdStep (registerState { sA with recentActions := sA.recentActions.filter (fun kv => decide (now - kv.2 ≤ ACTION_DEDUP_WINDOW_MS)) } now g gid) b.name).1,
         [] ++ aOuts ++ (missingIdStep (registerState { sA with recentActions := sA.recentActions.filter (fun kv => decide (now - kv.2 ≤ ACTION_DEDUP_WINDOW_MS)) } now g gid) b.name).2 ++ []) := by
    rw [stepToolCall_eq]
    simp only [hsw, hea]
    rw [processCalls_cons_register now _ g [b] gid hgname hgid hlookS hcondS]
    rw [processCalls_cons_missing now _ b [] hbname hbid]
    rfl
  have hrs : (registerState { sA with recentActions := sA.recentActions.filter (fun kv => decide (now - kv.2 ≤ ACTION_DEDUP_WINDOW_MS)) } now g gid).pendingToolCalls
      = [(stableArgsHash g.name (g.args.getD (.obj [])), freshEntry s.toolIdCounter now gid g.name)] := by
    show alistSet sA.pendingToolCalls _ _ = _
    rw [hpendA, hctrA]
    rfl
  have hmsp := missingIdStep_state (registerState { sA with recentActions := sA.recentActions.filter (fun kv => decide (now - kv.2 ≤ ACTION_DEDUP_WINDOW_MS)) } now g gid) b.name
  have hpend1 : (stepToolCall s now [g, b]).1.pendingToolCalls
      = [(stableArgsHash g.name (g.args.getD (.obj [])), freshEntry s.toolIdCounter now gid g.name)] := by
    rw [hstep]
    exact hmsp.1.trans hrs
  refine ⟨?_, ?_, hpend1, ?_, ?_⟩
  · intro cs hcs
    rw [hstep] at hcs
    simp only [List.nil_append, List.append_nil] at hcs
    rcases List.mem_append.mp hcs with h | h
    · cases hao _ h
    · rcases missingIdStep_outs_shape _ _ _ h with h3 | ⟨t, h3⟩ <;> cases h3
  · rw [hstep]
    simp only [List.nil_append, List.append_nil]
    rw [countResponsesTo_append, haz, missingIdStep_zero_responses]
  · intro k hk
    rw [hstep]
    show alistGet (missingIdStep (registerState { sA with recentActions := sA.recentActions.filter (fun kv => decide (now - kv.2 ≤ ACTION_DEDUP_WINDOW_MS)) } now g gid) b.name).1.recentActions k = some now
    rw [hmsp.2.1]
    simp only [registerState, hk]
    exact alistGet_alistSet_self _ k now
  · rw [stepEvent_other_outs, hpend1]
    exact sweep_timeout_outs now2 _ _ _ (List.mem_singleton.mpr rfl) rfl hlate _
      (sweepEntryOuts_canonical _ gid rfl)

/-- Witness for C10 at a concrete batch `[get_tasks(g1), add_task(no id)]`
on a fresh session: nothing answered for `g1` in the step, the entry
stays registered, and the sweep at 40s answers it. -/
theorem c10_abort_skips_forward_witness :
    countResponsesTo "g1"
      (stepToolCall initState 0
        [⟨some "g1", "get_tasks", none⟩, ⟨none, "add_task", none⟩]).2 = 0
    ∧ (stepToolCall initState 0
        [⟨some "g1", "get_tasks", none⟩, ⟨none, "add_task", none⟩]).1.pendingToolCalls
      = [(stableArgsHash "get_tasks" (.obj []), freshEntry 0 0 "g1" "get_tasks")]
    ∧ Output.toolResponse ⟨some "g1", "get_tasks",
        timeoutErr (freshEntry 0 0 "g1" "get_tasks")⟩
      ∈ (stepEvent (stepToolCall initState 0
          [⟨some "g1", "get_tasks", none⟩, ⟨none, "add_task", none⟩]).1
          (.upstreamOther 40000)).2 := by
  have h := c10_abort_skips_forward initState 0 40000
    ⟨some "g1", "get_tasks", none⟩ ⟨none, "add_task", none⟩ "g1"
    rfl (by decide) rfl
    (by
      intro k hk
      rw [show actionKey "get_tasks" none = none from rfl] at hk
      cases hk)
    (by decide) rfl (by decide)
  exact ⟨h.2.1, h.2.2.1, h.2.2.2.2⟩

/-! ## The LoopGuard proxy variant (claim C7, `src/unnamed/part_001`)

The earlier proxy counts occurrences of byte-identical inbound
`message.toolCall` payloads (keyed by `JSON.stringify(message.toolCall)`)
and of outgoing `name:JSON.stringify(result)` pairs in one shared
`toolCallCounts` map, threshold `MAX_TOOL_CALLS = 3`.  The client socket
is taken to be open, and the asynchronous reconnect is modelled as
completing immediately (its `onopen` callback fires the `reconnected`
notice and clears `isReconnecting`, so the net state change is a fresh
session and a cleared flag). -/

/-- Per-connection state of the LoopGuard proxy.  `sessionGen` counts
the upstream sessions opened so far (1 after the initial connect). -/
structure LoopState where
  toolCallCounts : List (String × Nat)
  isReconnecting : Bool
  sessionGen : Nat

/-- `MAX_TOOL_CALLS` from the LoopGuard server. -/
def MAX_TOOL_CALLS : Nat := 3

/-- Observable effects of the LoopGuard handlers. -/
inductive LoopOutput where
  | forwardToClient (payload : String)
  | sendUpstream (rs : List (String × String))
  | closeSession
  | openSession
  | clientReconnected
  | clientLoopDetected

/-- State at client connect (the initial upstream session is open). -/
def loopInit : LoopState :=
  { toolCallCounts := [], isReconnecting := false, sessionGen := 1 }

/-- The inbound `onmessage` loop check: count the byte-identical
payload; past the threshold, clear all counters, close and reopen the
session (notifying `loop_detected` and then `reconnected`) and do not
forward; otherwise forward the message to the client. -/
def loopInbound (s : LoopState) (payload : String) : LoopState × List LoopOutput :=
  let count := (alistGet s.toolCallCounts payload).getD 0 + 1
  let counts := alistSet s.toolCallCounts payload count
  if count > MAX_TOOL_CALLS then
    ({ s with toolCallCounts := [], isReconnecting := false, sessionGen := s.sessionGen + 1 },
     [.closeSession, .clientLoopDetected, .openSession, .clientReconnected])
  else
    ({ s with toolCallCounts := counts }, [.forwardToClient payload])

/-- One step of the outgoing loop check: count the `name:result` key and
clear the send flag when the count passes the threshold. -/
def loopOutStep (st : List (String × Nat) × Bool) (r : String × String)
    : List (String × Nat) × Bool :=
  let key := r.1 ++ ":" ++ r.2
  let count := (alistGet st.1 key).getD 0 + 1
  (alistSet st.1 key count, st.2 && !(decide (count > MAX_TOOL_CALLS)))

/-- The client `toolResponse` handler of the LoopGuard proxy: count each
response's `name:result` key; when any count passes the threshold the
whole batch is dropped, otherwise it is sent upstream.  Counters are
never cleared here and the session is never replaced. -/
def loopOutbound (s : LoopState) (rs : List (String × String))
    : LoopState × List LoopOutput :=
  let res := rs.foldl loopOutStep (s.toolCallCounts, true)
  ({ s with toolCallCounts := res.1 },
   if res.2 then [.sendUpstream rs] else [])

/-- Events driving one LoopGuard session. -/
inductive LoopEvent where
  | upstreamToolCall (payload : String)
  | clientToolResponse (rs : List (String × String))

/-- One event step of the LoopGuard proxy. -/
def loopStep (s : LoopState) : LoopEvent → LoopState × List LoopOutput
  | .upstreamToolCall payload => loopInbound s payload
  | .clientToolResponse rs => loopOutbound s rs

/-- Run the LoopGuard proxy over an event trace. -/
def loopRun (s : LoopState) : List LoopEvent → LoopState × List LoopOutput
  | [] => (s, [])
  | e :: rest =>
    let r := loopStep s e
    let r2 := loopRun r.1 rest
    (r2.1, r.2 ++ r2.2)

lemma alistGet_alistSet_other {α : Type} (m : List (String × α))
    (k k2 : String) (v : α) (hne : k2 ≠ k) :
    alistGet (alistSet m k v) k2 = alistGet m k2 := by
  have h1 : ¬ k = k2 := fun h => hne h.symm
  induction m with
  | nil =>
    show alistGet [(k, v)] k2 = alistGet [] k2
    unfold alistGet
    rw [List.find?_cons_of_neg _ (by simpa using h1)]
  | cons kv rest ih =>
    by_cases hk : kv.1 = k
    · simp only [alistSet, if_pos hk]
      have h2 : ¬ kv.1 = k2 := by rw [hk]; exact h1
      unfold alistGet
      rw [List.find?_cons_of_neg _ (by simpa using h1),
        List.find?_cons_of_neg _ (by simpa using h2)]
    · simp only [alistSet, if_neg hk]
      by_cases hk2 : kv.1 = k2
      · unfold alistGet
        rw [List.find?_cons_of_pos _ (by simpa using hk2),
          List.find?_cons_of_pos _ (by simpa using hk2)]
      · unfold alistGet
        rw [List.find?_cons_of_neg _ (by simpa using hk2),
          List.find?_cons_of_neg _ (by simpa using hk2)]
        exact ih

/-- The count of any key never decreases across the outgoing loop
check (in particular, it is never reset). -/
lemma loopOutStep_counts_mono (rs : List (String × String)) :
    ∀ (st : List (String × Nat) × Bool) (key : String),
    (alistGet st.1 key).getD 0
      ≤ (alistGet (rs.foldl loopOutStep st).1 key).getD 0 := by
  induction rs with
  | nil => intro st key; exact le_refl _
  | cons r rest ih =>
    intro st key
    refine le_trans ?_ (ih (loopOutStep st r) key)
    unfold loopOutStep
    by_cases hk : key = r.1 ++ ":" ++ r.2
    · subst hk
      rw [alistGet_alistSet_self]
      simp
    · rw [alistGet_alistSet_other _ _ _ _ hk]

/-- Four byte-identical outgoing tool responses in one session. -/
def loopTraceOut : List LoopEvent :=
  List.replicate 4 (.clientToolResponse [("add_task", "ok")])

/-- C7 as stated is false on the outgoing path: after the 4th identical
`name+result` response exceeds the threshold, the proxy merely drops
that send — the outputs hold exactly the first three upstream sends (no
session close, no reopen, no `loop_detected` notice), the counter stands
at 4 rather than being reset, and the session generation is still 1. -/
theorem c7_counterexample :
    (loopRun loopInit loopTraceOut).2
      = [LoopOutput.sendUpstream [("add_task", "ok")],
         LoopOutput.sendUpstream [("add_task", "ok")],
         LoopOutput.sendUpstream [("add_task", "ok")]]
    ∧ (loopRun loopInit loopTraceOut).1.toolCallCounts = [("add_task:ok", 4)]
    ∧ (loopRun loopInit loopTraceOut).1.sessionGen = 1 :=
  ⟨rfl, rfl, rfl⟩

/-- C7 (amended): the full loop recovery — abort the triggering message,
close the upstream session, reopen a fresh one, notify the client with
`loop_detected` and a `reconnected` event, and reset all counters — is
performed only on the **inbound** tool-call path.  On the **outgoing**
tool-response path, exceeding the threshold only causes the triggering
response batch to be dropped: nothing is sent upstream for it, the
session is never closed or reopened, no `loop_detected` notice is sent,
and the counters are not reset (they keep growing). -/
theorem c7_loop_recovery_inbound_only :
    (∀ (s : LoopState) (payload : String),
      (alistGet s.toolCallCounts payload).getD 0 + 1 > MAX_TOOL_CALLS →
      loopInbound s payload
        = ({ s with toolCallCounts := [], isReconnecting := false, sessionGen := s.sessionGen + 1 },
           [.closeSession, .clientLoopDetected, .openSession, .clientReconnected]))
    ∧ (∀ (s : LoopState) (rs : List (String × String)),
        ∀ o ∈ (loopOutbound s rs).2, o = LoopOutput.sendUpstream rs)
    ∧ (∀ (s : LoopState) (rs : List (String × String)) (key : String),
        (alistGet s.toolCallCounts key).getD 0
          ≤ (alistGet (loopOutbound s rs).1.toolCallCounts key).getD 0)
    ∧ (∀ (s : LoopState) (r : String × String),
        (alistGet s.toolCallCounts (r.1 ++ ":" ++ r.2)).getD 0 + 1 > MAX_TOOL_CALLS →
        (loopOutbound s [r]).2 = []) := by
  refine ⟨?_, ?_, ?_, ?_⟩
  · intro s payload hcnt
    simp only [loopInbound]
    rw [if_pos hcnt]
  · intro s rs o ho
    simp only [loopOutbound] at ho
    by_cases hflag : (rs.foldl loopOutStep (s.toolCallCounts, true)).2 = true
    · rw [if_pos hflag] at ho
      exact List.mem_singleton.mp ho
    · rw [if_neg hflag] at ho
      cases ho
  · intro s rs key
    exact loopOutStep_counts_mono rs (s.toolCallCounts, true) key
  · intro s r hcnt
    have hflag : (loopOutStep (s.toolCallCounts, true) r).2 = false := by
      simp only [loopOutStep]
      simp [hcnt]
    simp [loopOutbound, hflag]

/-- A LoopGuard state with the inbound payload already seen 3 times. -/
def loopStateIn3 : LoopState :=
  { toolCallCounts := [("P", 3)], isReconnecting := false, sessionGen := 1 }

/-- A LoopGuard state with one outgoing pair already at the threshold. -/
def loopStateOut3 : LoopState :=
  { toolCallCounts := [("add_task:ok", 3)], isReconnecting := false, sessionGen := 1 }

/-- Witness for C7 (amended): the 4th identical inbound payload triggers
the full recovery with counters reset, while the 4th identical outgoing
pair is merely dropped. -/
theorem c7_loop_recovery_inbound_only_witness :
    loopInbound loopStateIn3 "P"
      = ({ toolCallCounts := [], isReconnecting := false, sessionGen := 2 },
         [.closeSession, .clientLoopDetected, .openSession, .clientReconnected])
    ∧ (loopOutbound loopStateOut3 [("add_task", "ok")]).2 = [] := by
  constructor
  · exact c7_loop_recovery_inbound_only.1 loopStateIn3 "P" (by decide)
  · exact c7_loop_recovery_inbound_only.2.2.2 loopStateOut3 ("add_task", "ok")
      (by decide)

/-! ## Claim C2: at most one forward per fingerprint -/

lemma run_nil (s : SessionState) : run s [] = (s, []) := rfl

lemma run_cons (s : SessionState) (e : Event) (rest : List Event) :
    run s (e :: rest)
      = ((run (stepEvent s e).1 rest).1,
         (stepEvent s e).2 ++ (run (stepEvent s e).1 rest).2) := by
  rcases h1 : stepEvent s e with ⟨s1, o1⟩
  rcases h2 : run s1 rest with ⟨s2, o2⟩
  simp [run, h1, h2]

lemma stepEvent_upstreamCalls (s : SessionState) (t : Nat) (calls : List Call) :
    stepEvent s (.upstreamCalls t calls) = stepToolCall s t calls := rfl

lemma forwardedCalls_append (xs ys : List Output) :
    forwardedCalls (xs ++ ys) = forwardedCalls xs ++ forwardedCalls ys := by
  induction xs with
  | nil => rfl
  | cons o rest ih => cases o <;> simp [forwardedCalls, ih]

lemma emitActivity_forwardedCalls (s : SessionState) (st : ActivityState) :
    forwardedCalls (emitActivity s st).2 = [] := by
  unfold emitActivity
  split
  · rfl
  · split <;> rfl

/-- An unresponded entry that has not yet reached `MAX_PENDING_TOOL_MS`
survives the sweep untouched, with no outputs. -/
lemma sweepPending_keep_singleton (now : Nat) (k : String) (e : PendingEntry)
    (hresp : e.responded = false)
    (htime : ¬ now - e.timestamp > MAX_PENDING_TOOL_MS) :
    sweepPending now [(k, e)] = ([(k, e)], []) := by
  simp only [sweepPending]
  rw [if_neg (by simp [hresp]), if_neg (by simp [htime])]

/-- The args fingerprint the dedup map keys on, as the code computes it
for one incoming call: `stableArgsHash(fc.name, fc.args ?? \x7b\x7d)`. -/
def fpOf (c : Call) : String := stableArgsHash c.name (c.args.getD (.obj []))

/-- A call covered by the at-most-one-forward property for fingerprint
`h`: not the server-only `log_thought` tool, carrying an upstream id,
and hashing to `h` — its surface `name`/`args` spelling is otherwise
arbitrary (key order, string casing and whitespace may differ between
covered calls). -/
def coveredFpCall (h : String) (c : Call) : Prop :=
  ¬ c.name = "log_thought" ∧ (∃ g, c.id = some g) ∧ fpOf c = h

/-- Processing a batch of calls that all hash to the fingerprint of the
single pending entry: every call is queued on the duplicate lists,
nothing is answered (the entry has no cached result), nothing is
forwarded, and the loop does not abort. -/
lemma processCalls_all_dups (now : Nat) (h : String) :
    ∀ (cs : List Call) (s : SessionState) (e : PendingEntry),
    (∀ c ∈ cs, coveredFpCall h c) →
    s.pendingToolCalls = [(h, e)] →
    e.result = none →
    ∃ e2 : PendingEntry,
      processCalls now s cs
        = ({ s with pendingToolCalls := [(h, e2)], toolIdCounter := s.toolIdCounter + cs.length }, [], [], false)
      ∧ e2.duplicateGeminiIds = e.duplicateGeminiIds ++ cs.map Call.id
      ∧ e2.result = none ∧ e2.responded = e.responded
      ∧ e2.timestamp = e.timestamp ∧ e2.geminiId = e.geminiId
      ∧ e2.originalId = e.originalId ∧ e2.name = e.name := by
  intro cs
  induction cs with
  | nil =>
    intro s e _ hmap hres
    refine ⟨e, ?_, by simp, hres, rfl, rfl, rfl, rfl, rfl⟩
    simp only [processCalls_nil, List.length_nil, Nat.add_zero]
    rw [← hmap]
  | cons c rest ih =>
    intro s e hcov hmap hres
    obtain ⟨hn, ⟨g, hid⟩, hfp⟩ := hcov c (List.mem_cons_self _ _)
    have hkey : h = stableArgsHash c.name (c.args.getD (.obj [])) := by
      rw [← hfp]
      rfl
    have hlook : alistGet s.pendingToolCalls
        (stableArgsHash c.name (c.args.getD (.obj []))) = some e := by
      rw [hmap]
      unfold alistGet
      rw [List.find?_cons_of_pos _ (by simp [hkey])]
      rfl
    have hstep := processCalls_cons_dup now s c rest g e hn hid hlook
    have hdmap : (dupRecordState s now c g e).pendingToolCalls
        = [(h,
            { e with duplicateIds := e.duplicateIds ++ [(s.toolIdCounter + 1, now)], duplicateGeminiIds := e.duplicateGeminiIds ++ [some g] })] := by
      show alistSet s.pendingToolCalls _ _ = _
      rw [hmap]
      simp only [alistSet]
      rw [if_pos hkey, ← hkey]
    obtain ⟨e2, heq, hdup, hres2, hresp2, hts2, hgid2, hoid2, hname2⟩ :=
      ih (dupRecordState s now c g e)
        { e with duplicateIds := e.duplicateIds ++ [(s.toolIdCounter + 1, now)], duplicateGeminiIds := e.duplicateGeminiIds ++ [some g] }
        (fun c2 hc2 => hcov c2 (List.mem_cons_of_mem _ hc2)) hdmap hres
    refine ⟨e2, ?_, ?_, hres2, hresp2, hts2, hgid2, hoid2, hname2⟩
    · rw [hstep, heq]
      simp only [dupRecordState, dupCacheOuts, hres,
        List.length_cons, List.nil_append, List.append_nil]
      rw [show s.toolIdCounter + 1 + rest.length = s.toolIdCounter + (rest.length + 1) from by omega]
    · rw [hdup]
      rw [show (c :: rest).map Call.id = c.id :: rest.map Call.id from rfl, hid]
      simp

/-- A whole upstream batch of calls hashing to the fingerprint of the
single unresponded pending entry: the entry survives (duplicates queued
in arrival order) and nothing is forwarded to the client. -/
lemma stepToolCall_all_dups (now : Nat) (h : String) (cs : List Call)
    (s : SessionState) (e : PendingEntry)
    (hcov : ∀ c ∈ cs, coveredFpCall h c)
    (hmap : s.pendingToolCalls = [(h, e)])
    (hres : e.result = none) (hresp : e.responded = false)
    (htime : ¬ now - e.timestamp > MAX_PENDING_TOOL_MS) :
    ∃ e2 : PendingEntry,
      (stepToolCall s now cs).1.pendingToolCalls = [(h, e2)]
      ∧ forwardedCalls (stepToolCall s now cs).2 = []
      ∧ e2.duplicateGeminiIds = e.duplicateGeminiIds ++ cs.map Call.id
      ∧ e2.result = none ∧ e2.responded = false ∧ e2.timestamp = e.timestamp := by
  have hsw : sweepPending now s.pendingToolCalls = ([(h, e)], []) := by
    rw [hmap]
    exact sweepPending_keep_singleton now _ e hresp htime
  rcases hea : emitActivity { s with pendingToolCalls := [(h, e)] } .thinking with ⟨sA, aOuts⟩
  have hes := emitActivity_state { s with pendingToolCalls := [(h, e)] } .thinking
  rw [hea] at hes
  have hpendA : sA.pendingToolCalls = [(h, e)] := hes.1
  have hfa : forwardedCalls aOuts = [] := by
    have h2 := emitActivity_forwardedCalls { s with pendingToolCalls := [(h, e)] } .thinking
    rw [hea] at h2
    exact h2
  obtain ⟨e2, hpc, hdup, hres2, hresp2, hts2, hgid2, hoid2, hname2⟩ :=
    processCalls_all_dups now h cs
      { sA with recentActions := sA.recentActions.filter (fun kv => decide (now - kv.2 ≤ ACTION_DEDUP_WINDOW_MS)) } e hcov
      (by show sA.pendingToolCalls = _; exact hpendA) hres
  refine ⟨e2, ?_, ?_, hdup, hres2, hresp2 ▸ hresp, hts2⟩
  · rw [stepToolCall_eq]
    simp only [hsw, hea]
    rw [hpc]
  · rw [stepToolCall_eq]
    simp only [hsw, hea]
    rw [hpc]
    simp only [List.nil_append, List.append_nil]
    rw [forwardedCalls_append, hfa]
    rfl

/-- The session state right before the per-call loop of the very first
upstream batch (fresh session at time `t1`). -/
def sInit1 : SessionState :=
  { pendingToolCalls := [], recentActions := [], toolIdCounter := 0,
    missingToolIdCount := 0, lastActivityState := .thinking,
    currentInputTranscript := "", lastFinalInputTranscript := "",
    clientOpen := true }

/-- The first upstream batch on a fresh session: the first call is
registered (under its own surface spelling) and forwarded under internal
id `(1, t1)`; every further call of the batch hashing to the same
fingerprint is queued as a duplicate; nothing else is forwarded. -/
lemma stepToolCall_first_batch (t1 : Nat) (c0 : Call) (g : UpId)
    (hn : ¬ c0.name = "log_thought") (hid : c0.id = some g)
    (rest : List Call)
    (hcov : ∀ c ∈ rest, coveredFpCall (fpOf c0) c) :
    ∃ e : PendingEntry,
      (stepToolCall initState t1 (c0 :: rest)).1.pendingToolCalls
        = [(fpOf c0, e)]
      ∧ forwardedCalls (stepToolCall initState t1 (c0 :: rest)).2
        = [⟨(1, t1), c0.name, c0.args⟩]
      ∧ e.duplicateGeminiIds = rest.map Call.id
      ∧ e.result = none ∧ e.responded = false ∧ e.timestamp = t1 := by
  have hsw : sweepPending t1 initState.pendingToolCalls = ([], []) := rfl
  have hea : emitActivity { initState with pendingToolCalls := [] } .thinking
      = (sInit1, [Output.clientActivity .thinking]) := rfl
  have hcondS : ¬ ((actionKey c0.name c0.args).isSome = true
      ∧ (alistGet (sInit1 : SessionState).recentActions ((actionKey c0.name c0.args).getD "")).isSome = true) := by
    rintro ⟨h1, h2⟩
    cases h2
  have hreg := processCalls_cons_register t1 sInit1 c0 rest g hn hid rfl hcondS
  have hrmap : (registerState sInit1 t1 c0 g).pendingToolCalls
      = [(fpOf c0, freshEntry 0 t1 g c0.name)] := rfl
  obtain ⟨e2, hpc, hdup, hres2, hresp2, hts2, hgid2, hoid2, hname2⟩ :=
    processCalls_all_dups t1 (fpOf c0) rest
      (registerState sInit1 t1 c0 g) (freshEntry 0 t1 g c0.name) hcov hrmap rfl
  refine ⟨e2, ?_, ?_, by simpa using hdup, hres2, by rw [hresp2]; rfl, by rw [hts2]; rfl⟩
  · rw [stepToolCall_eq]
    simp only [hsw, hea]
    rw [show ({ sInit1 with recentActions := List.filter (fun kv => decide (t1 - kv.2 ≤ ACTION_DEDUP_WINDOW_MS)) sInit1.recentActions } : SessionState) = sInit1 from rfl]
    rw [hreg, hpc]
  · rw [stepToolCall_eq]
    simp only [hsw, hea]
    rw [show ({ sInit1 with recentActions := List.filter (fun kv => decide (t1 - kv.2 ≤ ACTION_DEDUP_WINDOW_MS)) sInit1.recentActions } : SessionState) = sInit1 from rfl]
    rw [hreg, hpc]
    rfl

lemma c2_aux (h : String) (t1 : Nat) :
    ∀ (batches : List (Nat × List Call)) (s : SessionState) (e : PendingEntry),
    (∀ p ∈ batches, ∀ c ∈ p.2, coveredFpCall h c) →
    s.pendingToolCalls = [(h, e)] →
    e.result = none → e.responded = false → e.timestamp = t1 →
    (∀ p ∈ batches, p.1 - t1 ≤ MAX_PENDING_TOOL_MS) →
    ∃ e2 : PendingEntry,
      (run s (batches.map (fun p => Event.upstreamCalls p.1 p.2))).1.pendingToolCalls
        = [(h, e2)]
      ∧ forwardedCalls (run s (batches.map (fun p => Event.upstreamCalls p.1 p.2))).2 = []
      ∧ e2.duplicateGeminiIds
          = e.duplicateGeminiIds ++ ((batches.map Prod.snd).flatten).map Call.id
      ∧ e2.result = none ∧ e2.responded = false ∧ e2.timestamp = t1 := by
  intro batches
  induction batches with
  | nil =>
    intro s e _ hmap hres hresp hts _
    exact ⟨e, by simpa [run_nil] using hmap, rfl, by simp, hres, hresp, hts⟩
  | cons p rest ih =>
    intro s e hcov hmap hres hresp hts htime
    obtain ⟨e2, hmap2, hfwd2, hdup2, hres2, hresp2, hts2⟩ :=
      stepToolCall_all_dups p.1 h p.2 s e
        (hcov p (List.mem_cons_self _ _)) hmap hres hresp
        (by
          have := htime p (List.mem_cons_self _ _)
          rw [hts]
          omega)
    obtain ⟨e3, hmap3, hfwd3, hdup3, hres3, hresp3, hts3⟩ :=
      ih (stepToolCall s p.1 p.2).1 e2
        (fun q hq c hc => hcov q (List.mem_cons_of_mem _ hq) c hc)
        hmap2 hres2 hresp2 (hts2.trans hts)
        (fun q hq => htime q (List.mem_cons_of_mem _ hq))
    refine ⟨e3, ?_, ?_, ?_, hres3, hresp3, hts3⟩
    · rw [List.map_cons, run_cons, stepEvent_upstreamCalls]
      exact hmap3
    · rw [List.map_cons, run_cons, stepEvent_upstreamCalls,
        forwardedCalls_append, hfwd2, hfwd3]
      rfl
    · rw [hdup3, hdup2]
      simp

/-- C2: for any sequence of calls sharing one args fingerprint — their
surface `name`/`args` spellings may differ (top-level key order, string
casing, surrounding whitespace), they only need to hash to the same
`stableArgsHash` key — arriving in arbitrary batches from a fresh
session before the canonical call is resolved or swept, exactly the
first call is forwarded to the client (under its internal id `(1, t1)`
and with its own surface spelling), and every other call of the
sequence is recorded on the single pending entry's duplicate list, in
arrival order. -/
theorem c2_at_most_one_forward (c0 : Call) (g : UpId)
    (hn : ¬ c0.name = "log_thought") (hid : c0.id = some g)
    (t1 : Nat) (cs0 : List Call) (batches : List (Nat × List Call))
    (hcov0 : ∀ c ∈ cs0, coveredFpCall (fpOf c0) c)
    (hcovB : ∀ p ∈ batches, ∀ c ∈ p.2, coveredFpCall (fpOf c0) c)
    (htime : ∀ p ∈ batches, p.1 - t1 ≤ MAX_PENDING_TOOL_MS) :
    ∃ e : PendingEntry,
      (run initState (Event.upstreamCalls t1 (c0 :: cs0)
          :: batches.map (fun p => Event.upstreamCalls p.1 p.2))).1.pendingToolCalls
        = [(fpOf c0, e)]
      ∧ forwardedCalls (run initState (Event.upstreamCalls t1 (c0 :: cs0)
          :: batches.map (fun p => Event.upstreamCalls p.1 p.2))).2
        = [⟨(1, t1), c0.name, c0.args⟩]
      ∧ e.duplicateGeminiIds = (cs0 ++ (batches.map Prod.snd).flatten).map Call.id := by
  obtain ⟨e1, hmap1, hfwd1, hdup1, hres1, hresp1, hts1⟩ :=
    stepToolCall_first_batch t1 c0 g hn hid cs0 hcov0
  obtain ⟨e2, hmap2, hfwd2, hdup2, hres2, hresp2, hts2⟩ :=
    c2_aux (fpOf c0) t1 batches
      (stepToolCall initState t1 (c0 :: cs0)).1 e1
      hcovB hmap1 hres1 hresp1 hts1 htime
  refine ⟨e2, ?_, ?_, ?_⟩
  · rw [run_cons, stepEvent_upstreamCalls]
    exact hmap2
  · rw [run_cons, stepEvent_upstreamCalls, forwardedCalls_append, hfwd1, hfwd2]
    rfl
  · rw [hdup2, hdup1]
    simp

/-- The canonical call of the C2 witness scenario and two
surface-distinct variants hashing to the same fingerprint (the
spec scenario: `add_task` with title `"Call Mom"` versus
`"  call mom "` versus `"call mom"`). -/
def c2c0 : Call := ⟨some "g1", "add_task", some (.obj [("title", .str "Call Mom")])⟩

def c2c1 : Call := ⟨some "g2", "add_task", some (.obj [("title", .str "  call mom ")])⟩

def c2c2 : Call := ⟨some "g3", "add_task", some (.obj [("title", .str "call mom")])⟩

/-- Witness for C2 at a concrete interleaving of the three
surface-distinct spellings (`c2c0, c2c1` in one batch at t=0, `c2c2` in
a batch at t=1s): the three calls are pairwise different as payloads yet
share the fingerprint, only the first is forwarded, and the map stays a
single entry. -/
theorem c2_at_most_one_forward_witness :
    (¬ getStrField c2c1.args "title" = getStrField c2c0.args "title"
      ∧ ¬ getStrField c2c2.args "title" = getStrField c2c0.args "title"
      ∧ fpOf c2c1 = fpOf c2c0 ∧ fpOf c2c2 = fpOf c2c0)
    ∧ forwardedCalls (run initState
        (Event.upstreamCalls 0 (c2c0 :: [c2c1])
          :: ([((1000 : Nat), [c2c2])] : List (Nat × List Call)).map
              (fun p => Event.upstreamCalls p.1 p.2))).2
      = [⟨(1, 0), c2c0.name, c2c0.args⟩]
    ∧ (run initState
        (Event.upstreamCalls 0 (c2c0 :: [c2c1])
          :: ([((1000 : Nat), [c2c2])] : List (Nat × List Call)).map
              (fun p => Event.upstreamCalls p.1 p.2))).1.pendingToolCalls.length
      = 1 := by
  have hcov0 : ∀ c ∈ [c2c1], coveredFpCall (fpOf c2c0) c := by
    intro c hc
    rcases List.mem_singleton.mp hc with rfl
    exact ⟨by decide, ⟨"g2", rfl⟩, rfl⟩
  have hcovB : ∀ p ∈ ([((1000 : Nat), [c2c2])] : List (Nat × List Call)),
      ∀ c ∈ p.2, coveredFpCall (fpOf c2c0) c := by
    intro p hp c hc
    rcases List.mem_singleton.mp hp with rfl
    rcases List.mem_singleton.mp hc with rfl
    exact ⟨by decide, ⟨"g3", rfl⟩, rfl⟩
  have htime : ∀ p ∈ ([((1000 : Nat), [c2c2])] : List (Nat × List Call)),
      p.1 - 0 ≤ MAX_PENDING_TOOL_MS := by
    intro p hp
    rcases List.mem_singleton.mp hp with rfl
    decide
  obtain ⟨e, h1, h2, h3⟩ := c2_at_most_one_forward c2c0 "g1" (by decide) rfl
    0 [c2c1] [(1000, [c2c2])] hcov0 hcovB htime
  refine ⟨⟨by decide, by decide, rfl, rfl⟩, h2, ?_⟩
  rw [h1]
  rfl

/-! ## Claim C1: response conservation (exactly-one-response) -/

lemma count_dupTimeouts (u : UpId) (nm : String) (resp : Json) :
    ∀ dups : List (Option UpId),
    countResponsesTo u (dups.filterMap (fun d =>
      match d with
      | some g => some (Output.toolResponse ⟨some g, nm, resp⟩)
      | none => none)) = dups.count (some u) := by
  intro dups
  induction dups with
  | nil => rfl
  | cons d rest ih =>
    cases d with
    | none =>
      simp only [List.filterMap_cons]
      rw [List.count_cons]
      simpa using ih
    | some g =>
      simp only [List.filterMap_cons]
      rw [List.count_cons]
      simp only [countResponsesTo, ih, frCount]
      by_cases hg : g = u
      · subst hg
        simp [Nat.add_comm]
      · have h1 : ¬ (some g : Option UpId) = some u := by simpa using hg
        have h2 : ((some g : Option UpId) == some u) = false := by
          simpa using h1
        simp [h1, h2]

lemma count_dupResponses (u : UpId) (nm : String) (resp : Json) :
    ∀ dups : List (Option UpId),
    countResponsesTo u (dups.map (fun d => Output.toolResponse ⟨d, nm, resp⟩))
      = dups.count (some u) := by
  intro dups
  induction dups with
  | nil => rfl
  | cons d rest ih =>
    simp only [List.map_cons]
    rw [List.count_cons]
    simp only [countResponsesTo, ih, frCount]
    by_cases hd : d = some u
    · subst hd
      simp [Nat.add_comm]
    · have h2 : (d == some u) = false := by simpa using hd
      simp [hd, h2]

lemma count_sweepEntryOuts (u : UpId) (e : PendingEntry)
    (hresp : e.responded = false) :
    countResponsesTo u (sweepEntryOuts e) = owedEntry u e := by
  unfold sweepEntryOuts owedEntry
  rw [countResponsesTo_append, count_dupTimeouts]
  rw [if_neg (by simp [hresp])]
  cases hg : e.geminiId with
  | none =>
    simp only [countResponsesTo]
    have : ¬ (none : Option UpId) = some u := by simp
    simp [frCount, this]
  | some g =>
    simp only [countResponsesTo, frCount]
    by_cases hgu : (some g : Option UpId) = some u
    · simp [hgu]
    · simp [hgu]

lemma owedMap_set_existing (u : UpId) (m : List (String × PendingEntry))
    (k : String) (e v : PendingEntry) (hget : alistGet m k = some e) :
    owedMap u (alistSet m k v) + owedEntry u e
      = owedMap u m + owedEntry u v := by
  induction m with
  | nil => cases hget
  | cons kv rest ih =>
    by_cases hk : kv.1 = k
    · unfold alistGet at hget
      rw [List.find?_cons_of_pos _ (by simpa using hk)] at hget
      simp only [Option.map_some', Option.some.injEq] at hget
      subst hget
      simp only [alistSet, if_pos hk]
      simp only [owedMap, List.map_cons, List.sum_cons]
      omega
    · unfold alistGet at hget
      rw [List.find?_cons_of_neg _ (by simpa using hk)] at hget
      simp only [alistSet, if_neg hk]
      simp only [owedMap, List.map_cons, List.sum_cons]
      have := ih hget
      simp only [owedMap] at this
      omega

lemma owedMap_set_new (u : UpId) (m : List (String × PendingEntry))
    (k : String) (v : PendingEntry) (hget : alistGet m k = none) :
    owedMap u (alistSet m k v) = owedMap u m + owedEntry u v := by
  induction m with
  | nil => simp [alistSet, owedMap]
  | cons kv rest ih =>
    by_cases hk : kv.1 = k
    · unfold alistGet at hget
      rw [List.find?_cons_of_pos _ (by simpa using hk)] at hget
      cases hget
    · unfold alistGet at hget
      rw [List.find?_cons_of_neg _ (by simpa using hk)] at hget
      simp only [alistSet, if_neg hk]
      simp only [owedMap, List.map_cons, List.sum_cons]
      have := ih hget
      simp only [owedMap] at this
      omega

/-- The sweep conserves responses: what it emits plus what the surviving
map still owes equals what the map owed before. -/
lemma sweep_balance (u : UpId) (now : Nat) :
    ∀ m : List (String × PendingEntry),
    countResponsesTo u (sweepPending now m).2 + owedMap u (sweepPending now m).1
      = owedMap u m := by
  intro m
  induction m with
  | nil => rfl
  | cons kv rest ih =>
    obtain ⟨k0, e0⟩ := kv
    simp only [sweepPending]
    by_cases h1 : e0.responded = true ∧ now - e0.timestamp > DEDUP_WINDOW_MS
    · rw [if_pos h1]
      have how : owedEntry u e0 = 0 := by simp [owedEntry, h1.1]
      simp only [owedMap, List.map_cons, List.sum_cons, how]
      simpa [owedMap] using ih
    · rw [if_neg h1]
      by_cases h2 : e0.responded = false ∧ now - e0.timestamp > MAX_PENDING_TOOL_MS
      · rw [if_pos h2]
        rw [countResponsesTo_append, count_sweepEntryOuts u e0 h2.1]
        simp only [owedMap, List.map_cons, List.sum_cons]
        simp only [owedMap] at ih
        omega
      · rw [if_neg h2]
        simp only [owedMap, List.map_cons, List.sum_cons]
        simp only [owedMap] at ih
        omega

/-- The sweep only shrinks the map, so the responded-iff-cached
invariant survives it. -/
lemma sweep_good (now : Nat) (m : List (String × PendingEntry))
    (hg : goodEntries m) : goodEntries (sweepPending now m).1 := by
  intro kv hkv
  obtain ⟨k, e⟩ := kv
  exact hg (k, e) ((sweep_mem_iff now m k e).mp hkv).1

/-- The responded-iff-cached property of a single entry. -/
def goodEntry (v : PendingEntry) : Prop :=
  v.responded = true ↔ v.result.isSome = true

lemma mem_alistSet {α : Type} (m : List (String × α)) (k : String) (v : α) :
    ∀ kv ∈ alistSet m k v, kv = (k, v) ∨ kv ∈ m := by
  induction m with
  | nil =>
    intro kv hkv
    rcases List.mem_singleton.mp hkv with rfl
    exact Or.inl rfl
  | cons kv0 rest ih =>
    intro kv hkv
    by_cases hk : kv0.1 = k
    · simp only [alistSet, if_pos hk] at hkv
      rcases List.mem_cons.mp hkv with rfl | hkv
      · exact Or.inl rfl
      · exact Or.inr (List.mem_cons_of_mem _ hkv)
    · simp only [alistSet, if_neg hk] at hkv
      rcases List.mem_cons.mp hkv with rfl | hkv
      · exact Or.inr (List.mem_cons_self _ _)
      · rcases ih kv hkv with h | h
        · exact Or.inl h
        · exact Or.inr (List.mem_cons_of_mem _ h)

lemma goodEntries_alistSet (m : List (String × PendingEntry)) (k : String)
    (v : PendingEntry) (hg : goodEntries m) (hv : goodEntry v) :
    goodEntries (alistSet m k v) := by
  intro kv hkv
  rcases mem_alistSet m k v kv hkv with rfl | h
  · exact hv
  · exact hg kv h

lemma count_thoughtOuts (u : UpId) (b : Bool) (c : Call) :
    countResponsesTo u (thoughtOuts b c) = if c.id = some u then 1 else 0 := by
  cases b <;> simp [thoughtOuts, countResponsesTo, frCount]

/-- The per-call loop conserves responses: the responses it emits plus
what the resulting map owes equals what the starting map owed plus the
covered arrivals of the batch — provided no reached `log_thought` call
carries the id under consideration, and entries are responded iff
cached. -/
lemma processCalls_balance (u : UpId) (now : Nat) :
    ∀ (calls : List Call) (s : SessionState),
    goodEntries s.pendingToolCalls →
    (thoughtIdsInBatch calls).count (some u) = 0 →
    goodEntries (processCalls now s calls).1.pendingToolCalls
    ∧ countResponsesTo u (processCalls now s calls).2.1
        + owedMap u (processCalls now s calls).1.pendingToolCalls
      = owedMap u s.pendingToolCalls + (countedIdsInBatch calls).count u := by
  intro calls
  induction calls with
  | nil =>
    intro s hg _
    exact ⟨hg, by simp [processCalls_nil, countResponsesTo, countedIdsInBatch]⟩
  | cons fc rest ih =>
    intro s hg hth
    by_cases hname : fc.name = "log_thought"
    · -- server-only call: no state change, an answer on its own id
      have hth1 : ¬ fc.id = some u ∧ (thoughtIdsInBatch rest).count (some u) = 0 := by
        rw [thoughtIdsInBatch, if_pos hname] at hth
        rw [List.count_cons] at hth
        by_cases heq : fc.id = some u
        · rw [heq] at hth
          simp at hth
        · refine ⟨heq, ?_⟩
          have h2 : (fc.id == some u) = false := by simpa using heq
          rw [h2, if_neg (by simp)] at hth
          omega
      rcases hr : processCalls now s rest with ⟨s3, outs3, uniq3, ab3⟩
      have hihr := ih s hg hth1.2
      rw [hr] at hihr
      dsimp only at hihr
      obtain ⟨hg3, hbal⟩ := hihr
      rw [processCalls_cons_thought now s fc rest hname, hr]
      dsimp only
      refine ⟨hg3, ?_⟩
      rw [countResponsesTo_append, count_thoughtOuts, if_neg hth1.1]
      rw [countedIdsInBatch, if_pos hname]
      omega
    · cases hid : fc.id with
      | none =>
        rw [processCalls_cons_missing now s fc rest hname hid]
        refine ⟨?_, ?_⟩
        · rw [(missingIdStep_state s fc.name).1]
          exact hg
        · rw [(missingIdStep_state s fc.name).1, missingIdStep_zero_responses]
          rw [countedIdsInBatch, if_neg hname, hid]
          simp
      | some gid =>
        have hcnt : (countedIdsInBatch (fc :: rest)).count u
            = (if gid = u then 1 else 0) + (countedIdsInBatch rest).count u := by
          rw [countedIdsInBatch, if_neg hname, hid, List.count_cons]
          by_cases hgu : gid = u
          · simp [hgu, Nat.add_comm]
          · have : (gid == u) = false := by simpa using hgu
            simp [hgu, this]
        have hth2 : (thoughtIdsInBatch rest).count (some u) = 0 := by
          rw [thoughtIdsInBatch, if_neg hname, hid] at hth
          exact hth
        cases hlook : alistGet s.pendingToolCalls
            (stableArgsHash fc.name (fc.args.getD (.obj []))) with
        | some e =>
          -- exact duplicate
          have hmem := alistGet_some_mem _ _ _ hlook
          have hge : goodEntry e := hg _ hmem
          rcases hr : processCalls now (dupRecordState s now fc gid e) rest with ⟨s3, outs3, uniq3, ab3⟩
          have hgood2 : goodEntries (dupRecordState s now fc gid e).pendingToolCalls := by
            show goodEntries (alistSet s.pendingToolCalls _ _)
            refine goodEntries_alistSet _ _ _ hg ?_
            exact hge
          have hihr := ih (dupRecordState s now fc gid e) hgood2 hth2
          rw [hr] at hihr
          dsimp only at hihr
          obtain ⟨hg3, hbal⟩ := hihr
          rw [processCalls_cons_dup now s fc rest gid e hname hid hlook, hr]
          dsimp only
          refine ⟨hg3, ?_⟩
          rw [countResponsesTo_append]
          have hset := owedMap_set_existing u s.pendingToolCalls
            (stableArgsHash fc.name (fc.args.getD (.obj []))) e
            { e with duplicateIds := e.duplicateIds ++ [(s.toolIdCounter + 1, now)], duplicateGeminiIds := e.duplicateGeminiIds ++ [some gid] }
            hlook
          have howed2 : owedMap u (dupRecordState s now fc gid e).pendingToolCalls
              = owedMap u (alistSet s.pendingToolCalls (stableArgsHash fc.name (fc.args.getD (.obj [])))
                  { e with duplicateIds := e.duplicateIds ++ [(s.toolIdCounter + 1, now)], duplicateGeminiIds := e.duplicateGeminiIds ++ [some gid] }) := rfl
          cases hres : e.result with
          | some r =>
            have hresp : e.responded = true := hge.mpr (by simp [hres])
            have hoe : owedEntry u e = 0 := by simp [owedEntry, hresp]
            have hou : owedEntry u { e with duplicateIds := e.duplicateIds ++ [(s.toolIdCounter + 1, now)], duplicateGeminiIds := e.duplicateGeminiIds ++ [some gid] } = 0 := by
              simp [owedEntry, hresp]
            have hco : countResponsesTo u (dupCacheOuts fc gid e)
                = if gid = u then 1 else 0 := by
              simp only [dupCacheOuts, hres]
              by_cases hgu : gid = u
              · simp [countResponsesTo, frCount, hgu]
              · have : ¬ (some gid : Option UpId) = some u := by simpa using hgu
                simp [countResponsesTo, frCount, hgu, this]
            rw [hco, hcnt]
            rw [hoe, hou] at hset
            rw [howed2] at hbal
            obtain ⟨d, hd⟩ : ∃ d, (if gid = u then 1 else 0) = d := ⟨_, rfl⟩
            rw [hd]
            omega
          | none =>
            have hresp : e.responded = false := by
              cases hre : e.responded with
              | false => rfl
              | true =>
                have := hge.mp hre
                rw [hres] at this
                cases this
            have hoe : owedEntry u { e with duplicateIds := e.duplicateIds ++ [(s.toolIdCounter + 1, now)], duplicateGeminiIds := e.duplicateGeminiIds ++ [some gid] }
                = owedEntry u e + (if gid = u then 1 else 0) := by
              simp only [owedEntry, hresp]
              simp only [Bool.false_eq_true, if_false]
              rw [List.count_append]
              have h1 : List.count (some u) [(some gid : Option UpId)]
                  = if gid = u then 1 else 0 := by
                rw [List.count_cons, List.count_nil]
                by_cases hgu : gid = u
                · subst hgu
                  simp
                · have h2 : ((some gid : Option UpId) == some u) = false := by
                    simpa using hgu
                  rw [h2]
                  simp [hgu]
              rw [h1]
              omega
            have hco : countResponsesTo u (dupCacheOuts fc gid e) = 0 := by
              simp [dupCacheOuts, hres, countResponsesTo]
            rw [hco, hcnt]
            rw [hoe] at hset
            rw [howed2] at hbal
            obtain ⟨d, hd⟩ : ∃ d, (if gid = u then 1 else 0) = d := ⟨_, rfl⟩
            rw [hd]
            rw [hd] at hset
            omega
        | none =>
          by_cases hcond : (actionKey fc.name fc.args).isSome = true
              ∧ (alistGet s.recentActions ((actionKey fc.name fc.args).getD "")).isSome = true
          · -- semantic duplicate: immediate synthetic answer
            rcases hr : processCalls now { s with toolIdCounter := s.toolIdCounter + 1 } rest with ⟨s3, outs3, uniq3, ab3⟩
            have hihr := ih { s with toolIdCounter := s.toolIdCounter + 1 }
              (by exact hg) hth2
            rw [hr] at hihr
            dsimp only at hihr
            obtain ⟨hg3, hbal⟩ := hihr
            rw [processCalls_cons_semantic now s fc rest gid hname hid hlook hcond, hr]
            dsimp only
            refine ⟨hg3, ?_⟩
            have hso : countResponsesTo u (semanticOut fc gid :: outs3)
                = (if gid = u then 1 else 0) + countResponsesTo u outs3 := by
              by_cases hgu : gid = u
              · simp [semanticOut, countResponsesTo, frCount, hgu]
              · have : ¬ (some gid : Option UpId) = some u := by simpa using hgu
                simp [semanticOut, countResponsesTo, frCount, hgu, this]
            rw [hso, hcnt]
            obtain ⟨d, hd⟩ : ∃ d, (if gid = u then 1 else 0) = d := ⟨_, rfl⟩
            rw [hd]
            omega
          · -- genuinely new call: register
            rcases hr : processCalls now (registerState s now fc gid) rest with ⟨s3, outs3, uniq3, ab3⟩
            have hgood2 : goodEntries (registerState s now fc gid).pendingToolCalls := by
              show goodEntries (alistSet s.pendingToolCalls _ _)
              refine goodEntries_alistSet _ _ _ hg ?_
              constructor
              · intro h; cases h
              · intro h; cases h
            have hihr := ih (registerState s now fc gid) hgood2 hth2
            rw [hr] at hihr
            dsimp only at hihr
            obtain ⟨hg3, hbal⟩ := hihr
            rw [processCalls_cons_register now s fc rest gid hname hid hlook hcond, hr]
            dsimp only
            refine ⟨hg3, ?_⟩
            have hset : owedMap u (registerState s now fc gid).pendingToolCalls
                = owedMap u s.pendingToolCalls + (if gid = u then 1 else 0) := by
              show owedMap u (alistSet s.pendingToolCalls _ _) = _
              rw [owedMap_set_new u _ _ _ hlook]
              congr 1
              by_cases hgu : gid = u
              · simp [owedEntry, freshEntry, hgu]
              · have : ¬ (some gid : Option UpId) = some u := by simpa using hgu
                simp [owedEntry, this, hgu]
            rw [hset] at hbal
            rw [hcnt]
            obtain ⟨d, hd⟩ : ∃ d, (if gid = u then 1 else 0) = d := ⟨_, rfl⟩
            rw [hd]
            rw [hd] at hbal
            omega

/-- A whole `onmessage` tool-call step conserves responses: sweep,
activity emission, the per-call loop, and the forward (which sends no
upstream responses) together emit exactly the responses that the owed
ledger releases plus one obligation per covered arrival. -/
lemma stepToolCall_balance (u : UpId) (now : Nat) (s : SessionState)
    (calls : List Call)
    (hg : goodEntries s.pendingToolCalls)
    (hth : (thoughtIdsInBatch calls).count (some u) = 0) :
    goodEntries (stepToolCall s now calls).1.pendingToolCalls
    ∧ countResponsesTo u (stepToolCall s now calls).2
        + owedMap u (stepToolCall s now calls).1.pendingToolCalls
      = owedMap u s.pendingToolCalls + (countedIdsInBatch calls).count u := by
  rw [stepToolCall_eq]
  rcases hsw : sweepPending now s.pendingToolCalls with ⟨m1, swOuts⟩
  dsimp only
  rcases hea : emitActivity { s with pendingToolCalls := m1 } .thinking with ⟨sA, aOuts⟩
  dsimp only
  rcases hpr : processCalls now { sA with recentActions := sA.recentActions.filter (fun kv => decide (now - kv.2 ≤ ACTION_DEDUP_WINDOW_MS)) } calls with ⟨s4, cOuts, uniq, ab⟩
  dsimp only
  have hswb := sweep_balance u now s.pendingToolCalls
  rw [hsw] at hswb
  dsimp only at hswb
  have hswg := sweep_good now s.pendingToolCalls hg
  rw [hsw] at hswg
  dsimp only at hswg
  have hpA : sA.pendingToolCalls = m1 := by
    have := (emitActivity_state { s with pendingToolCalls := m1 } .thinking).1
    rw [hea] at this
    exact this
  have haz : countResponsesTo u aOuts = 0 := by
    have := emitActivity_zero_responses { s with pendingToolCalls := m1 } .thinking u
    rw [hea] at this
    exact this
  have hgB : goodEntries ({ sA with recentActions := sA.recentActions.filter (fun kv => decide (now - kv.2 ≤ ACTION_DEDUP_WINDOW_MS)) } : SessionState).pendingToolCalls := by
    show goodEntries sA.pendingToolCalls
    rw [hpA]
    exact hswg
  have hprb := processCalls_balance u now calls
    { sA with recentActions := sA.recentActions.filter (fun kv => decide (now - kv.2 ≤ ACTION_DEDUP_WINDOW_MS)) } hgB hth
  rw [hpr] at hprb
  dsimp only at hprb
  obtain ⟨hg4, hbal⟩ := hprb
  have hoB : owedMap u ({ sA with recentActions := sA.recentActions.filter (fun kv => decide (now - kv.2 ≤ ACTION_DEDUP_WINDOW_MS)) } : SessionState).pendingToolCalls = owedMap u m1 := by
    show owedMap u sA.pendingToolCalls = _
    rw [hpA]
  rw [hoB] at hbal
  refine ⟨hg4, ?_⟩
  have hfwd : countResponsesTo u
      (if ab then []
       else if uniq.isEmpty then []
       else if s4.clientOpen then [Output.forwardCalls uniq] else []) = 0 := by
    by_cases h1 : ab = true
    · rw [if_pos h1]
      rfl
    · rw [if_neg h1]
      by_cases h2 : uniq.isEmpty = true
      · rw [if_pos h2]
        rfl
      · rw [if_neg h2]
        by_cases h3 : s4.clientOpen = true
        · rw [if_pos h3]
          rfl
        · rw [if_neg h3]
          rfl
  rw [countResponsesTo_append, countResponsesTo_append, countResponsesTo_append]
  rw [haz, hfwd]
  omega

lemma map_frCount_append (u : UpId) (xs ys : List FunctionResponse) :
    ((xs ++ ys).map (frCount u)).sum
      = (xs.map (frCount u)).sum + (ys.map (frCount u)).sum := by
  rw [List.map_append, List.sum_append]

/-- The inner completion loop conserves responses when the client result
carries a defined `result` field: the duplicate sends plus the batched
element plus what the mutated map still owes equal what the map owed
before, and the responded-iff-cached invariant survives. -/
lemma completeInMap_balance (u : UpId) (r : ClientResp)
    (hres : (getField r.response "result").isSome = true) :
    ∀ m : List (String × PendingEntry), goodEntries m →
    goodEntries (completeInMap r m).1
    ∧ countResponsesTo u (completeInMap r m).2.1
        + (((completeInMap r m).2.2).map (frCount u)).sum
        + owedMap u (completeInMap r m).1
      = owedMap u m := by
  intro m
  induction m with
  | nil =>
    intro _
    exact ⟨fun kv hkv => absurd hkv (List.not_mem_nil kv), rfl⟩
  | cons kv rest ih =>
    intro hg
    obtain ⟨k, e⟩ := kv
    have hgrest : goodEntries rest := fun kv2 h2 => hg kv2 (List.mem_cons_of_mem _ h2)
    by_cases h1 : e.originalId = r.id
    · by_cases h2 : e.responded = true
      · rw [show completeInMap r ((k, e) :: rest) = ((k, e) :: rest, [], []) by
          simp [completeInMap, h1, h2]]
        exact ⟨hg, by simp [countResponsesTo, owedMap]⟩
      · have h2f : e.responded = false := by
          cases hre : e.responded
          · rfl
          · exact absurd hre h2
        rw [show completeInMap r ((k, e) :: rest)
            = ((k, { e with result := getField r.response "result", responded := true, duplicateIds := [], duplicateGeminiIds := [] }) :: rest,
               e.duplicateGeminiIds.map (fun d => Output.toolResponse ⟨d, e.name, r.response⟩),
               [⟨e.geminiId, e.name, r.response⟩]) by
          simp [completeInMap, h1, h2]]
        constructor
        · intro kv2 hkv2
          rcases List.mem_cons.mp hkv2 with rfl | hkv2
          · constructor
            · intro _; exact hres
            · intro _; rfl
          · exact hgrest kv2 hkv2
        · dsimp only
          rw [count_dupResponses]
          have hfr : (([(⟨e.geminiId, e.name, r.response⟩ : FunctionResponse)]).map (frCount u)).sum
              = if e.geminiId = some u then 1 else 0 := by
            simp [frCount]
          rw [hfr]
          simp only [owedMap, List.map_cons, List.sum_cons]
          have ho2 : owedEntry u { e with result := getField r.response "result", responded := true, duplicateIds := [], duplicateGeminiIds := [] } = 0 := by
            simp [owedEntry]
          have hoe : owedEntry u e = (if e.geminiId = some u then 1 else 0)
              + e.duplicateGeminiIds.count (some u) := by
            simp [owedEntry, h2f]
          rw [ho2, hoe]
          obtain ⟨d, hd⟩ : ∃ d, (if e.geminiId = some u then 1 else 0) = d := ⟨_, rfl⟩
          rw [hd]
          omega
    · rcases hrec : completeInMap r rest with ⟨m2, outs2, frs2⟩
      have hih := ih hgrest
      rw [hrec] at hih
      dsimp only at hih
      obtain ⟨hgm2, hbal2⟩ := hih
      rw [show completeInMap r ((k, e) :: rest) = ((k, e) :: m2, outs2, frs2) by
        simp [completeInMap, h1, hrec]]
      constructor
      · intro kv2 hkv2
        rcases List.mem_cons.mp hkv2 with rfl | hkv2
        · exact hg _ (List.mem_cons_self _ _)
        · exact hgm2 kv2 hkv2
      · dsimp only
        simp only [owedMap, List.map_cons, List.sum_cons]
        simp only [owedMap] at hbal2
        omega

/-- The sequential completion of a whole client `toolResponse` message
conserves responses when every element carries a defined result. -/
lemma completeAll_balance (u : UpId) :
    ∀ (rs : List ClientResp) (s : SessionState),
    (∀ r ∈ rs, (getField r.response "result").isSome = true) →
    goodEntries s.pendingToolCalls →
    goodEntries (completeAll s rs).1.pendingToolCalls
    ∧ countResponsesTo u (completeAll s rs).2.1
        + (((completeAll s rs).2.2).map (frCount u)).sum
        + owedMap u (completeAll s rs).1.pendingToolCalls
      = owedMap u s.pendingToolCalls := by
  intro rs
  induction rs with
  | nil =>
    intro s _ hg
    exact ⟨hg, by simp [completeAll, countResponsesTo]⟩
  | cons r rest ih =>
    intro s hdef hg
    have hres : (getField r.response "result").isSome = true :=
      hdef r (List.mem_cons_self _ _)
    rcases hcm : completeInMap r s.pendingToolCalls with ⟨m2, outs1, frs1⟩
    have hone := completeInMap_balance u r hres s.pendingToolCalls hg
    rw [hcm] at hone
    dsimp only at hone
    obtain ⟨hgm2, hbal1⟩ := hone
    rcases hca : completeAll { s with pendingToolCalls := m2 } rest with ⟨s2, outs2, frs2⟩
    have hrest := ih { s with pendingToolCalls := m2 }
      (fun r2 h2 => hdef r2 (List.mem_cons_of_mem _ h2)) hgm2
    rw [hca] at hrest
    dsimp only at hrest
    obtain ⟨hgs2, hbal2⟩ := hrest
    rw [show completeAll s (r :: rest) = (s2, outs1 ++ outs2, frs1 ++ frs2) by
      simp [completeAll, hcm, hca]]
    refine ⟨hgs2, ?_⟩
    dsimp only
    rw [countResponsesTo_append, map_frCount_append]
    omega

/-- The client `toolResponse` handler conserves responses: the duplicate
sends plus the final batched send release exactly the obligations the
map gives up. -/
lemma stepToolResponses_balance (u : UpId) (s : SessionState)
    (rs : List ClientResp)
    (hdef : ∀ r ∈ rs, (getField r.response "result").isSome = true)
    (hg : goodEntries s.pendingToolCalls) :
    goodEntries (stepToolResponses s rs).1.pendingToolCalls
    ∧ countResponsesTo u (stepToolResponses s rs).2
        + owedMap u (stepToolResponses s rs).1.pendingToolCalls
      = owedMap u s.pendingToolCalls := by
  rcases hca : completeAll s rs with ⟨s1, outs, frs⟩
  have hone := completeAll_balance u rs s hdef hg
  rw [hca] at hone
  dsimp only at hone
  obtain ⟨hg1, hbal⟩ := hone
  rw [show stepToolResponses s rs
      = (s1, outs ++ (if frs.isEmpty then [] else [Output.toolResponseBatch frs])) by
    simp only [stepToolResponses, hca]]
  refine ⟨hg1, ?_⟩
  dsimp only
  rw [countResponsesTo_append]
  have hbatch : countResponsesTo u (if frs.isEmpty then [] else [Output.toolResponseBatch frs])
      = (frs.map (frCount u)).sum := by
    cases frs with
    | nil => rfl
    | cons f fr => simp [countResponsesTo]
  rw [hbatch]
  omega

/-- Run-level conservation: over any trace with no covered `log_thought`
arrivals of id `u` and with every client result defined, the responses
sent to `u` plus what the final map owes equal what the initial map owed
plus the covered arrivals of `u`. -/
lemma run_balance (u : UpId) :
    ∀ (evts : List Event) (s : SessionState),
    goodEntries s.pendingToolCalls →
    thoughtArrivals u evts = 0 →
    (∀ ev ∈ evts, eventResultsDefined ev) →
    goodEntries (run s evts).1.pendingToolCalls
    ∧ countResponsesTo u (run s evts).2
        + owedMap u (run s evts).1.pendingToolCalls
      = owedMap u s.pendingToolCalls + arrivals u evts := by
  intro evts
  induction evts with
  | nil =>
    intro s hg _ _
    exact ⟨hg, by simp [run_nil, countResponsesTo, arrivals]⟩
  | cons ev rest ih =>
    intro s hg hth hdef
    have hdefr : ∀ e2 ∈ rest, eventResultsDefined e2 :=
      fun e2 h2 => hdef e2 (List.mem_cons_of_mem _ h2)
    cases ev with
    | upstreamCalls now calls =>
      have hthsplit : (thoughtIdsInBatch calls).count (some u) = 0
          ∧ thoughtArrivals u rest = 0 := by
        rw [thoughtArrivals] at hth
        omega
      rcases hst : stepToolCall s now calls with ⟨s1, o1⟩
      have hone := stepToolCall_balance u now s calls hg hthsplit.1
      rw [hst] at hone
      dsimp only at hone
      obtain ⟨hg1, hbal1⟩ := hone
      rcases hrn : run s1 rest with ⟨s2, o2⟩
      have hrest := ih s1 hg1 hthsplit.2 hdefr
      rw [hrn] at hrest
      dsimp only at hrest
      obtain ⟨hg2, hbal2⟩ := hrest
      rw [show run s (Event.upstreamCalls now calls :: rest) = (s2, o1 ++ o2) by
        simp [run, stepEvent, hst, hrn]]
      refine ⟨hg2, ?_⟩
      dsimp only
      rw [countResponsesTo_append]
      rw [show arrivals u (Event.upstreamCalls now calls :: rest)
          = (countedIdsInBatch calls).count u + arrivals u rest from rfl]
      omega
    | upstreamOther now =>
      have hth2 : thoughtArrivals u rest = 0 := hth
      rcases hsw : sweepPending now s.pendingToolCalls with ⟨m1, swOuts⟩
      have hswb := sweep_balance u now s.pendingToolCalls
      rw [hsw] at hswb
      dsimp only at hswb
      have hswg := sweep_good now s.pendingToolCalls hg
      rw [hsw] at hswg
      dsimp only at hswg
      rcases hrn : run { s with pendingToolCalls := m1 } rest with ⟨s2, o2⟩
      have hrest := ih { s with pendingToolCalls := m1 } hswg hth2 hdefr
      rw [hrn] at hrest
      dsimp only at hrest
      obtain ⟨hg2, hbal2⟩ := hrest
      rw [show run s (Event.upstreamOther now :: rest) = (s2, swOuts ++ o2) by
        simp [run, stepEvent, hsw, hrn]]
      refine ⟨hg2, ?_⟩
      dsimp only
      rw [countResponsesTo_append]
      rw [show arrivals u (Event.upstreamOther now :: rest) = arrivals u rest from rfl]
      omega
    | clientResponses rs =>
      have hth2 : thoughtArrivals u rest = 0 := hth
      have hrdef : ∀ r ∈ rs, (getField r.response "result").isSome = true :=
        hdef (Event.clientResponses rs) (List.mem_cons_self _ _)
      rcases hst : stepToolResponses s rs with ⟨s1, o1⟩
      have hone := stepToolResponses_balance u s rs hrdef hg
      rw [hst] at hone
      dsimp only at hone
      obtain ⟨hg1, hbal1⟩ := hone
      rcases hrn : run s1 rest with ⟨s2, o2⟩
      have hrest := ih s1 hg1 hth2 hdefr
      rw [hrn] at hrest
      dsimp only at hrest
      obtain ⟨hg2, hbal2⟩ := hrest
      rw [show run s (Event.clientResponses rs :: rest) = (s2, o1 ++ o2) by
        simp [run, stepEvent, hst, hrn]]
      refine ⟨hg2, ?_⟩
      dsimp only
      rw [countResponsesTo_append]
      rw [show arrivals u (Event.clientResponses rs :: rest) = arrivals u rest from rfl]
      omega

/-- Claim C1 (amended): exactly-one-response holds for every covered
upstream call id provided every client tool result carries a defined
`result` field. Under that proviso, over any event trace starting from a
fresh session in which id `u` never rides a `log_thought` call, once the
pending map has emptied (every entry resolved and swept), the number of
tool responses sent upstream to `u` equals the number of covered
arrivals of `u`: no id is answered twice and no id is left unanswered.
Without the proviso the property fails (see the counterexample): a
client error response marks the entry responded while caching no result,
and a duplicate arriving after that is queued but never answered. -/
theorem c1_exactly_one_response (u : UpId) (evts : List Event)
    (hth : thoughtArrivals u evts = 0)
    (hdef : ∀ ev ∈ evts, eventResultsDefined ev)
    (hfin : (run initState evts).1.pendingToolCalls = []) :
    countResponsesTo u (run initState evts).2 = arrivals u evts := by
  have h := run_balance u evts initState
    (fun kv hkv => absurd hkv (List.not_mem_nil kv)) hth hdef
  rw [hfin] at h
  have h2 := h.2
  rw [show owedMap u ([] : List (String × PendingEntry)) = 0 from rfl] at h2
  rw [show owedMap u initState.pendingToolCalls = 0 from rfl] at h2
  omega

/-- The settled success trace for the C1 witness: one call, a client
result with a defined `result` field, then a late upstream event whose
sweep drops the responded entry. -/
def c1TraceW : List Event :=
  [ .upstreamCalls 0 [⟨some "g1", "add_task", some (.obj [("title", .str "x")])⟩],
    .clientResponses [⟨(1, 0), "add_task", .obj [("result", .obj [("success", .bool true)])]⟩],
    .upstreamOther 20000 ]

theorem c1_exactly_one_response_witness :
    thoughtArrivals "g1" c1TraceW = 0
    ∧ (∀ ev ∈ c1TraceW, eventResultsDefined ev)
    ∧ (run initState c1TraceW).1.pendingToolCalls = []
    ∧ countResponsesTo "g1" (run initState c1TraceW).2 = arrivals "g1" c1TraceW := by
  have hdefW : ∀ ev ∈ c1TraceW, eventResultsDefined ev := by
    intro ev hev
    rcases List.mem_cons.mp hev with rfl | hev
    · exact trivial
    rcases List.mem_cons.mp hev with rfl | hev
    · intro r hr
      rcases List.mem_singleton.mp hr with rfl
      rfl
    rcases List.mem_cons.mp hev with rfl | hev
    · exact trivial
    · cases hev
  exact ⟨rfl, hdefW, rfl, c1_exactly_one_response "g1" c1TraceW rfl hdefW rfl⟩

/-- The failing trace for the original claim C1: the client answers the
canonical `add_task` call with the executor's error shape
`\x7b error: "Failed to execute" \x7d` (no `result` field), a duplicate
with id `g2` then arrives and is queued against the now-responded entry,
and a later upstream event sweeps the responded entry away. -/
def c1TraceC : List Event :=
  [ .upstreamCalls 0 [⟨some "g1", "add_task", some (.obj [("title", .str "x")])⟩],
    .clientResponses [⟨(1, 0), "add_task", .obj [("error", .str "Failed to execute")]⟩],
    .upstreamCalls 0 [⟨some "g2", "add_task", some (.obj [("title", .str "x")])⟩],
    .upstreamOther 20000 ]

/-- Counterexample to claim C1 as stated: on `c1TraceC` the session
settles (the pending map is empty), id `g2` is a covered arrival that
never rode a `log_thought` call, yet zero tool responses are ever sent
upstream for `g2`: the duplicate was queued on an entry already marked
responded whose cached result is `undefined` (the client error response
has no `result` field), so the arrival branch sends nothing, the
completion path skips responded entries, the timeout path skips
responded entries, and the cleanup sweep deletes the entry together with
its never-answered duplicate list. -/
theorem c1_counterexample :
    (run initState c1TraceC).1.pendingToolCalls = []
    ∧ thoughtArrivals "g2" c1TraceC = 0
    ∧ arrivals "g2" c1TraceC = 1
    ∧ countResponsesTo "g2" (run initState c1TraceC).2 = 0 :=
  ⟨rfl, rfl, rfl, rfl⟩

end DailyPilot
